import Mathlib

/-!
# Circuit simulator: verification development

Shallow embedding of the parts of the circuit simulator that its written
specification talks about: the inductor admittance (`src/inductor.cpp`), the
MNA solver (`src/MNAsolver.cpp`), the ground marker
(`src/gui_components/gui_ground.cpp`) and the editor
(`src/circuit_simulator_gui.cpp`).

Numbers: the program computes with `float` and `std::complex<float>`.  Most of
the embedding idealises them as exact rationals (`ℚ`) and exact complex
rationals (`Cplx`), without rounding, overflow or the IEEE special values; a
division whose divisor is zero is the outcome `none` of `fdiv` there.  The
section on single precision has the values and the arithmetic of `float`
itself (`Binary32`, `CFloat`), and the inductor admittance and the solver on
them: the statements in which rounding, underflow or a value that is no
`float` decide are made there.
-/

namespace CircuitSim

/-! ## Complex numbers with rational parts (`std::complex<float>`, idealised) -/

/-- Complex number `re + j·im` with exact rational parts. -/
@[ext]
structure Cplx where
  re : ℚ
  im : ℚ
deriving DecidableEq, Repr

namespace Cplx

instance : Zero Cplx := ⟨⟨0, 0⟩⟩
instance : One Cplx := ⟨⟨1, 0⟩⟩
instance : Add Cplx := ⟨fun a b => ⟨a.re + b.re, a.im + b.im⟩⟩
instance : Neg Cplx := ⟨fun a => ⟨-a.re, -a.im⟩⟩
instance : Sub Cplx := ⟨fun a b => ⟨a.re - b.re, a.im - b.im⟩⟩
instance : Mul Cplx := ⟨fun a b => ⟨a.re * b.re - a.im * b.im, a.re * b.im + a.im * b.re⟩⟩
instance : Inv Cplx :=
  ⟨fun a => ⟨a.re / (a.re * a.re + a.im * a.im), -a.im / (a.re * a.re + a.im * a.im)⟩⟩

/-- The imaginary unit `j`. -/
def j : Cplx := ⟨0, 1⟩

/-- A real number seen as a complex number (`std::complex<float>(r)`). -/
def ofReal (r : ℚ) : Cplx := ⟨r, 0⟩

@[simp] theorem zero_re : (0 : Cplx).re = 0 := rfl
@[simp] theorem zero_im : (0 : Cplx).im = 0 := rfl
@[simp] theorem one_re : (1 : Cplx).re = 1 := rfl
@[simp] theorem one_im : (1 : Cplx).im = 0 := rfl
@[simp] theorem add_re (a b : Cplx) : (a + b).re = a.re + b.re := rfl
@[simp] theorem add_im (a b : Cplx) : (a + b).im = a.im + b.im := rfl
@[simp] theorem neg_re (a : Cplx) : (-a).re = -a.re := rfl
@[simp] theorem neg_im (a : Cplx) : (-a).im = -a.im := rfl
@[simp] theorem sub_re (a b : Cplx) : (a - b).re = a.re - b.re := rfl
@[simp] theorem sub_im (a b : Cplx) : (a - b).im = a.im - b.im := rfl
@[simp] theorem mul_re (a b : Cplx) : (a * b).re = a.re * b.re - a.im * b.im := rfl
@[simp] theorem mul_im (a b : Cplx) : (a * b).im = a.re * b.im + a.im * b.re := rfl
@[simp] theorem inv_re (a : Cplx) : (a⁻¹).re = a.re / (a.re * a.re + a.im * a.im) := rfl
@[simp] theorem inv_im (a : Cplx) : (a⁻¹).im = -a.im / (a.re * a.re + a.im * a.im) := rfl

theorem normSq_ne_zero {a : Cplx} (h : a ≠ 0) : a.re * a.re + a.im * a.im ≠ 0 := by
  intro hz
  apply h
  have h1 : 0 ≤ a.re * a.re := mul_self_nonneg _
  have h2 : 0 ≤ a.im * a.im := mul_self_nonneg _
  have hre : a.re * a.re = 0 := by linarith
  have him : a.im * a.im = 0 := by linarith
  ext
  · simpa using mul_self_eq_zero.mp hre
  · simpa using mul_self_eq_zero.mp him

instance : CommRing Cplx where
  add_assoc a b c := by ext <;> simp <;> ring
  zero_add a := by ext <;> simp
  add_zero a := by ext <;> simp
  add_comm a b := by ext <;> simp <;> ring
  neg_add_cancel a := by ext <;> simp
  sub_eq_add_neg a b := by ext <;> simp <;> ring
  mul_assoc a b c := by ext <;> simp <;> ring
  one_mul a := by ext <;> simp
  mul_one a := by ext <;> simp
  mul_comm a b := by ext <;> simp <;> ring
  left_distrib a b c := by ext <;> simp <;> ring
  right_distrib a b c := by ext <;> simp <;> ring
  zero_mul a := by ext <;> simp
  mul_zero a := by ext <;> simp
  nsmul := nsmulRec
  zsmul := zsmulRec

instance : Field Cplx where
  exists_pair_ne := ⟨0, 1, by decide⟩
  mul_inv_cancel a h := by
    have hn := normSq_ne_zero h
    ext
    · simp; field_simp
    · simp; field_simp; ring
  inv_zero := by ext <;> simp
  nnqsmul := _
  qsmul := _
  nnqsmul_def := fun _ _ => rfl
  qsmul_def := fun _ _ => rfl

end Cplx

/-! ## Floating-point division -/

/-- The division `a / b` of two `float`s.  `none` stands for the division by
zero, whose IEEE result (`inf`, `nan`) is not a number. -/
def fdiv (a b : ℚ) : Option ℚ :=
  if b = 0 then none else some (a / b)

/-! ## `Inductor` (src/inductor.cpp) -/

namespace Inductor

/-- The divisor `w * inductance_` of the division in `GetAdmittance`, as an
exact product (the product of two `float`s is `Single.Inductor.divisor`). -/
def divisor (inductance_ w : ℚ) : ℚ := w * inductance_

/-- Source: `Inductor::GetAdmittance(w)`, the value
`std::complex<float>(0, 1 / (w * inductance_))`. -/
def GetAdmittance (inductance_ w : ℚ) : Option Cplx :=
  (fdiv 1 (divisor inductance_ w)).map fun q => ⟨0, q⟩

/-- The impedance `jωL` of an inductor, the complex number the admittance is
meant to invert. -/
def impedance (inductance_ w : ℚ) : Cplx :=
  Cplx.j * Cplx.ofReal w * Cplx.ofReal inductance_

end Inductor

/-! ## `std::map<std::string, V>` -/

/-- Key order of a `std::map<std::string, V>`: `operator<` of `std::string`,
the lexicographic order on the characters. -/
def keyLt (a b : String) : Prop := a.toList < b.toList

instance : DecidableRel keyLt := fun a b => inferInstanceAs (Decidable (a.toList < b.toList))

/-- Entries in strictly increasing key order, the order a `std::map` keeps and
iterates in. -/
def SortedEntries {V : Type} (l : List (String × V)) : Prop :=
  l.Pairwise fun a b => keyLt a.1 b.1

/-- The assignment `m[k] = v` on the entries of a map: overwrite the entry of
`k` when there is one, else insert a new entry at its place in key order. -/
def insertEntry {V : Type} (k : String) (v : V) : List (String × V) → List (String × V)
  | [] => [(k, v)]
  | e :: l =>
    if keyLt k e.1 then (k, v) :: e :: l
    else if k = e.1 then (k, v) :: l
    else e :: insertEntry k v l

theorem keyLt_trans {a b c : String} (h1 : keyLt a b) (h2 : keyLt b c) : keyLt a c :=
  lt_trans (α := List Char) h1 h2

theorem keyLt_irrefl (a : String) : ¬ keyLt a a :=
  lt_irrefl (α := List Char) a.toList

theorem keyLt_of_not {a b : String} (h1 : ¬ keyLt a b) (h2 : a ≠ b) : keyLt b a := by
  rcases lt_trichotomy a.toList b.toList with h | h | h
  · exact absurd h h1
  · exact absurd (String.ext h) h2
  · exact h

theorem mem_insertEntry {V : Type} (k : String) (v : V) (l : List (String × V))
    (e : String × V) (he : e ∈ insertEntry k v l) : e = (k, v) ∨ e ∈ l := by
  induction l with
  | nil => simpa [insertEntry] using he
  | cons d l ih =>
    simp only [insertEntry] at he
    split_ifs at he with h1 h2
    · simpa using he
    · rcases List.mem_cons.mp he with h | h
      · exact Or.inl h
      · exact Or.inr (List.mem_cons_of_mem _ h)
    · rcases List.mem_cons.mp he with h | h
      · exact Or.inr (h ▸ List.mem_cons_self _ _)
      · rcases ih h with h' | h'
        · exact Or.inl h'
        · exact Or.inr (List.mem_cons_of_mem _ h')

theorem insertEntry_sorted {V : Type} (k : String) (v : V) (l : List (String × V))
    (hl : SortedEntries l) : SortedEntries (insertEntry k v l) := by
  induction l with
  | nil => simp [insertEntry, SortedEntries]
  | cons d l ih =>
    have hd := List.pairwise_cons.mp hl
    simp only [insertEntry]
    split_ifs with h1 h2
    · refine List.pairwise_cons.mpr ⟨?_, hl⟩
      intro e he
      rcases List.mem_cons.mp he with h | h
      · simpa [h] using h1
      · exact keyLt_trans h1 (hd.1 e h)
    · refine List.pairwise_cons.mpr ⟨?_, hd.2⟩
      intro e he
      simpa [h2] using hd.1 e he
    · refine List.pairwise_cons.mpr ⟨?_, ih hd.2⟩
      intro e he
      rcases mem_insertEntry k v l e he with h | h
      · simpa [h] using keyLt_of_not h1 h2
      · exact hd.1 e h

/-- A `std::map<std::string, V>`: its entries, kept in increasing key order. -/
structure StdMap (V : Type) where
  entries : List (String × V)
  sorted : SortedEntries entries

namespace StdMap

/-- The empty map, also the result of `clear()`. -/
def empty {V : Type} : StdMap V := ⟨[], List.Pairwise.nil⟩

/-- The assignment `m[k] = v`. -/
def assign {V : Type} (m : StdMap V) (k : String) (v : V) : StdMap V :=
  ⟨insertEntry k v m.entries, insertEntry_sorted k v m.entries m.sorted⟩

/-- Lookup of a key: the value stored for `k`, if any. -/
def find {V : Type} (m : StdMap V) (k : String) : Option V :=
  (m.entries.find? fun e => e.1 = k).map Prod.snd

/-- The keys of the map, in iteration order. -/
def keys {V : Type} (m : StdMap V) : List String := m.entries.map Prod.fst

end StdMap

/-! ## `MNAsolver` (src/MNAsolver.cpp) -/

/-- Eigen's `A.inverse()` in exact arithmetic, by the adjugate formula.  For a
singular `A` Eigen's result is unspecified (`inf` and `nan` coefficients in
practice); no statement below depends on the value taken here in that case.
What Eigen computes in single precision is the parameter `Single.Eigen`. -/
def inverse {n : ℕ} (A : Matrix (Fin n) (Fin n) Cplx) : Matrix (Fin n) (Fin n) Cplx :=
  (A.det)⁻¹ • A.adjugate

/-- Coefficient access `x(i)` of an Eigen vector with an `int` index: `none`
when the index is out of range (an assertion failure or undefined behaviour
in the program). -/
def coeff (x : List Cplx) (i : ℤ) : Option Cplx :=
  if 0 ≤ i then x[i.toNat]? else none

/-- The coefficient `x(i)` with `0` in place of an out-of-range access. -/
def coeffD (x : List Cplx) (i : ℤ) : Cplx := (coeff x i).getD 0

/-- The coefficients `x(0), …, x(n-1)` of a vector of dimension `n`. -/
def coeffs {n : ℕ} (x : Fin n → Cplx) : List Cplx := (List.finRange n).map x

/-- Solver state: the members `x_`, `node_voltages_` and
`voltage_source_currents_`. -/
structure MNAsolver where
  x_ : List Cplx
  node_voltages_ : StdMap Cplx
  voltage_source_currents_ : StdMap Cplx

namespace MNAsolver

/-- The loop `for (auto const& i : indexes) out[i.first] = x_(i.second);`. -/
def fill (x : List Cplx) : List (String × ℤ) → StdMap Cplx → Option (StdMap Cplx)
  | [], out => some out
  | i :: rest, out =>
    match coeff x i.2 with
    | none => none
    | some v => fill x rest (out.assign i.1 v)

/-- Source: `MNAsolver::solveSteady(A, z, node_indexes, voltage_source_indexes)`.
The printing to `std::cout` is left out. -/
def solveSteady {n : ℕ} (self : MNAsolver) (A : Matrix (Fin n) (Fin n) Cplx)
    (z : Fin n → Cplx) (node_indexes voltage_source_indexes : StdMap ℤ) :
    Option MNAsolver :=
  let s1 : MNAsolver := { self with x_ := coeffs (Matrix.mulVec (inverse A) z) }
  let s2 : MNAsolver := { s1 with node_voltages_ := StdMap.empty }
  let s3 : MNAsolver := { s2 with voltage_source_currents_ := StdMap.empty }
  match fill s3.x_ node_indexes.entries s3.node_voltages_ with
  | none => none
  | some nv =>
    match fill s3.x_ voltage_source_indexes.entries s3.voltage_source_currents_ with
    | none => none
    | some vc => some { s3 with node_voltages_ := nv, voltage_source_currents_ := vc }

/-- Source: `MNAsolver::GetxVector`. -/
def GetxVector (self : MNAsolver) : List Cplx := self.x_

/-- Source: `MNAsolver::GetNodeVoltages`. -/
def GetNodeVoltages (self : MNAsolver) : StdMap Cplx := self.node_voltages_

/-- Source: `MNAsolver::GetVoltageSourceCurrents`. -/
def GetVoltageSourceCurrents (self : MNAsolver) : StdMap Cplx :=
  self.voltage_source_currents_

end MNAsolver

/-- Every index of the map is a position of a vector of dimension `n`. -/
def InRange (n : ℕ) (m : StdMap ℤ) : Prop :=
  ∀ e ∈ m.entries, 0 ≤ e.2 ∧ e.2 < n

instance (n : ℕ) (m : StdMap ℤ) : Decidable (InRange n m) :=
  inferInstanceAs (Decidable (∀ e ∈ m.entries, 0 ≤ e.2 ∧ e.2 < n))


/-! ### Example inputs of the solver -/

/-- A solver that has not solved anything yet. -/
def freshSolver : MNAsolver := ⟨[], StdMap.empty, StdMap.empty⟩

/-- A solver holding the results of an earlier call. -/
def usedSolver : MNAsolver :=
  ⟨[⟨5, 0⟩], StdMap.empty.assign "OLD" ⟨5, 0⟩, StdMap.empty.assign "VOLD" ⟨5, 0⟩⟩

/-- The index map `{N001 ↦ 0}`. -/
def nodeIndexes1 : StdMap ℤ := StdMap.empty.assign "N001" 0

/-- The index map `{V1 ↦ 1}`. -/
def sourceIndexes1 : StdMap ℤ := StdMap.empty.assign "V1" 1

/-- The index map `{V1 ↦ 0}`. -/
def sourceIndexes0 : StdMap ℤ := StdMap.empty.assign "V1" 0

/-- The empty index map. -/
def noIndexes : StdMap ℤ := StdMap.empty

/-! ## The simulate actions (src/circuit_simulator_gui.cpp, `RenderMenuBar`) -/

/-- The operations of `Circuit` that the simulate actions call.  The class is
declared outside the source files at hand, so its operations are parameters:
the statements about the simulate actions hold for every implementation. -/
structure CircuitOps (C : Type) where
  SetOmega : C → ℚ → C
  RemoveUnnecessaryNodes : C → C
  HasGround : C → Bool
  ConstructMatrices : C → C
  Solveable : C → Bool

/-- One step of a simulate action: a call on the circuit (with the value it
returned, for the two checks), a call on the solver, or a line printed to
`std::cout`. -/
inductive Call
  | SetOmega (w : ℚ)
  | RemoveUnnecessaryNodes
  | HasGround (returned : Bool)
  | ConstructMatrices
  | Solveable (returned : Bool)
  | solveSteady
  | setCurrents
  | resultListed
  | print (msg : String)
deriving DecidableEq, Repr

/-- Source: the statements of both simulate actions after `SetOmega`, from
`circuit_.RemoveUnnecessaryNodes()` to the end of the `if`/`else`: the circuit
they leave and the calls they make, appended in execution order to the calls
made so far. -/
def analyse {C : Type} (ops : CircuitOps C) (c0 : C) (calls0 : List Call) : C × List Call :=
  let c := ops.RemoveUnnecessaryNodes c0
  let calls := calls0 ++ [Call.RemoveUnnecessaryNodes]
  let hasGround := ops.HasGround c
  let calls := calls ++ [Call.HasGround hasGround]
  if hasGround then
    let c := ops.ConstructMatrices c
    let calls := calls ++ [Call.ConstructMatrices]
    let solveable := ops.Solveable c
    let calls := calls ++ [Call.Solveable solveable]
    if solveable then
      (c, calls ++ [Call.solveSteady, Call.setCurrents, Call.resultListed])
    else
      (c, calls ++ [Call.print "Failed to solve circuit."])
  else
    (c, calls ++ [Call.print "Add ground before simulating!"])

/-- Source: menu item "Steady state DC analysis". -/
def steadyStateDC {C : Type} (ops : CircuitOps C) (circuit_ : C) : C × List Call :=
  let c := ops.SetOmega circuit_ 0
  analyse ops c [Call.SetOmega 0]

/-- The angular frequency the AC action passes to `SetOmega` for the entered
value `w`. -/
def omegaAC (w : ℚ) : ℚ := if w > 0 then w else 0

/-- Source: button "OK" of the popup "Simulate stady state AC", with `w` the
entered angular frequency. -/
def steadyStateAC {C : Type} (ops : CircuitOps C) (circuit_ : C) (w : ℚ) : C × List Call :=
  if w > 0 then
    let c := ops.SetOmega circuit_ w
    analyse ops c [Call.SetOmega w]
  else
    let c := ops.SetOmega circuit_ 0
    analyse ops c [Call.SetOmega 0]

/-- In the list of calls, `b` is made only after `a`: no `b` comes before the
first `a`. -/
def onlyAfter (a b : Call) : List Call → Bool
  | [] => true
  | c :: rest => if c = a then true else if c = b then false else onlyAfter a b rest

/-- The calls are guarded as the specification asks: `ConstructMatrices` only
after `RemoveUnnecessaryNodes` and a `HasGround` that returned true, the two
solver calls only after `ConstructMatrices` and a `Solveable` that returned
true. -/
def guarded (calls : List Call) : Bool :=
  onlyAfter Call.RemoveUnnecessaryNodes Call.ConstructMatrices calls &&
  onlyAfter (Call.HasGround true) Call.ConstructMatrices calls &&
  onlyAfter Call.ConstructMatrices (Call.Solveable true) calls &&
  onlyAfter (Call.Solveable true) Call.solveSteady calls &&
  onlyAfter (Call.Solveable true) Call.setCurrents calls &&
  onlyAfter (Call.HasGround true) Call.solveSteady calls &&
  onlyAfter (Call.HasGround true) Call.setCurrents calls

/-- No solve is attempted and the failed check is followed by one printed
message and nothing else. -/
def onlyMessage (calls : List Call) : Prop :=
  Call.solveSteady ∉ calls ∧ Call.setCurrents ∉ calls ∧ Call.resultListed ∉ calls ∧
  ∃ before check msg, calls = before ++ [check, Call.print msg] ∧
    (check = Call.HasGround false ∨ check = Call.Solveable false) ∧
    ∀ c ∈ before, ∀ m, c ≠ Call.print m

/-! ## Nodes and ground markers (src/gui_components/gui_ground.cpp) -/

/-- Type of a node. -/
inductive NodeType
  | NORMAL
  | GROUND
deriving DecidableEq, Repr

/-- A `Node` object: its name, which identifies it, and its type. -/
structure Node where
  name : String
  type : NodeType
deriving DecidableEq, Repr

/-- The call `node->SetNodeType(type)` on the node called `name`, in a store
of node objects. -/
def SetNodeType (nodes : List Node) (name : String) (type : NodeType) : List Node :=
  nodes.map fun n => if n.name = name then { n with type := type } else n

/-- The type of the node called `name`, if the store has it. -/
def nodeTypeOf (nodes : List Node) (name : String) : Option NodeType :=
  (nodes.find? fun n => n.name = name).map Node.type

/-- A ground marker: the member `node_` (the name of the node it binds, `none`
for `nullptr`) and its position. -/
structure GUIGround where
  node_ : Option String
  x : ℚ
  y : ℚ
deriving DecidableEq, Repr

/-- The node objects and the live ground markers. -/
structure GroundState where
  nodes : List Node
  grounds : List GUIGround
deriving DecidableEq, Repr

namespace GUIGround

/-- Source: the constructor `GUIGround::GUIGround()`; `node_` starts null. -/
def new : GUIGround := ⟨none, 0, 0⟩

/-- Source: `GUIGround::SetNode(node)`, called on the marker at position `g` of
the list: `node_ = node; node_->SetNodeType(GROUND);`. -/
def SetNode (s : GroundState) (g : ℕ) (node : String) : GroundState :=
  { nodes := SetNodeType s.nodes node NodeType.GROUND
    grounds := s.grounds.modify (fun m => { m with node_ := some node }) g }

/-- Source: `GUIGround::~GUIGround()`, run when the marker at position `g` is
erased from the list: `if (node_) node_->SetNodeType(NORMAL);`. -/
def destroy (s : GroundState) (g : ℕ) : GroundState :=
  match s.grounds[g]? with
  | none => s
  | some m =>
    { nodes := match m.node_ with
        | some node => SetNodeType s.nodes node NodeType.NORMAL
        | none => s.nodes
      grounds := s.grounds.eraseIdx g }

end GUIGround

/-- An operation on ground markers. -/
inductive GroundOp
  | create
  | SetNode (g : ℕ) (node : String)
  | destroy (g : ℕ)
deriving DecidableEq, Repr

/-- One operation on the ground markers. -/
def GroundOp.apply (s : GroundState) : GroundOp → GroundState
  | .create => { s with grounds := s.grounds ++ [GUIGround.new] }
  | .SetNode g node => GUIGround.SetNode s g node
  | .destroy g => GUIGround.destroy s g

/-- A sequence of operations on the ground markers. -/
def runGroundOps (s : GroundState) (ops : List GroundOp) : GroundState :=
  ops.foldl GroundOp.apply s

/-- The claimed invariant: every node bound by a live marker has type
`GROUND`. -/
def boundNodesGrounded (s : GroundState) : Bool :=
  s.grounds.all fun m =>
    match m.node_ with
    | none => true
    | some node => (s.nodes.filter fun n => n.name = node).all fun n => n.type = NodeType.GROUND

/-! ## Text on the streams -/

/-- Source: `std::isspace` in the "C" locale, the characters that separate the
fields read by `operator>>`. -/
def isspace (c : Char) : Bool :=
  c == ' ' || c == '\t' || c == '\n' || c == '\x0b' || c == '\x0c' || c == '\r'

/-- The text has no whitespace in it. -/
def NoSpace (s : String) : Prop := ∀ c ∈ s.toList, isspace c = false

instance (s : String) : Decidable (NoSpace s) :=
  inferInstanceAs (Decidable (∀ c ∈ s.toList, isspace c = false))

/-- The text is one field: not empty, no whitespace. -/
def IsToken (s : String) : Prop := s.toList ≠ [] ∧ NoSpace s

instance (s : String) : Decidable (IsToken s) :=
  inferInstanceAs (Decidable (s.toList ≠ [] ∧ NoSpace s))

/-- The text form of a `float` on the standard streams: `operator<<`
(`write`), which prints one field, and `operator>>` on one field (`read`,
`none` when the field is not a number).  The exact formatting is a
parameter of the model. -/
structure FloatText where
  write : ℚ → String
  read : String → Option ℚ
  write_token : ∀ q, IsToken (write q)

/-- The whitespace-separated fields of a line, as `operator>>` finds them. -/
def words (line : String) : List String :=
  ((line.toList.splitOnP isspace).filter fun w => !w.isEmpty).map String.mk

/-- The number written by a string of decimal digits. -/
def digitsValue (cs : List Char) : ℕ :=
  cs.foldl (fun n c => 10 * n + (c.toNat - '0'.toNat)) 0

/-- A string of one or more decimal digits, read as a number. -/
def readNat (cs : List Char) : Option ℕ :=
  if !cs.isEmpty && cs.all Char.isDigit then some (digitsValue cs) else none

/-- An `int` read from one field by `operator>>`: an optional sign and decimal
digits.  Values outside the range of `int` are not modelled. -/
def readInt (s : String) : Option ℤ :=
  match s.toList with
  | '-' :: cs => (readNat cs).map fun n => -(n : ℤ)
  | '+' :: cs => (readNat cs).map fun n => (n : ℤ)
  | cs => (readNat cs).map fun n => (n : ℤ)

/-- The decimal digits a text starts with, read as a number, and the text after
them; `none` when the text starts with no digit. -/
def scanNat (cs : List Char) : Option (ℕ × List Char) :=
  match readNat (cs.takeWhile Char.isDigit) with
  | some n => some (n, cs.dropWhile Char.isDigit)
  | none => none

/-- The start of a field as `operator>>` reads an `int` from it: an optional
sign and the decimal digits after it, with the characters that stay in the
stream; `none` when no digit is there.  Values outside the range of `int` are
not modelled. -/
def scanInt (s : String) : Option (ℤ × List Char) :=
  match s.toList with
  | '-' :: cs => (scanNat cs).map fun p => (-(p.1 : ℤ), p.2)
  | '+' :: cs => (scanNat cs).map fun p => ((p.1 : ℤ), p.2)
  | cs => (scanNat cs).map fun p => ((p.1 : ℤ), p.2)

/-- A `std::stringstream` being read: the fields not yet extracted, and whether
the stream is still good (`false` once an extraction has failed). -/
structure IStream where
  toks : List String
  good : Bool
deriving DecidableEq, Repr

namespace IStream

/-- Source: `std::stringstream iss(line)`. -/
def ofLine (line : String) : IStream := ⟨words line, true⟩

/-- Source: `iss >> s` for a `std::string` that is empty before: the next
field, or the empty string and a failed stream when there is none. -/
def getString (s : IStream) : String × IStream :=
  if s.good then
    match s.toks with
    | [] => ("", ⟨[], false⟩)
    | t :: ts => (t, ⟨ts, true⟩)
  else ("", s)

/-- Source: `iss >> v` for a `float`.  A field that is not a number fails the
stream, which writes `0`.  With no field left, or after an earlier failure,
the stream leaves the variable unwritten; the variables read here (`value`,
`x`, `y`, `rot`) are uninitialised, so the program goes on with an
indeterminate number.  This model puts `0` in its place: the statements about
component and ground records below are about names, nodes and counts, and about
numbers that were read from fields that are there.  Whether a field is a
number is for `ft.read` to say; the fields that `SaveCircuit` writes are. -/
def getFloat (ft : FloatText) (s : IStream) : ℚ × IStream :=
  if s.good then
    match s.toks with
    | [] => (0, ⟨[], false⟩)
    | t :: ts =>
      match ft.read t with
      | some q => (q, ⟨ts, true⟩)
      | none => (0, ⟨t :: ts, false⟩)
  else (0, s)

/-- Source: `iss >> n` for an `int` declared without a value (`int verticies;`).
`some n` is the value written to the variable: the number the field starts
with, the rest of the field staying in the stream, or `0` when the field
starts with no number, which also fails the stream.  `none`: the variable is
left unwritten, as it is when the stream has no field left or has failed
before. -/
def getInt (s : IStream) : Option ℤ × IStream :=
  if s.good then
    match s.toks with
    | [] => (none, ⟨[], false⟩)
    | t :: ts =>
      match scanInt t with
      | some (n, []) => (some n, ⟨ts, true⟩)
      | some (n, c :: cs) => (some n, ⟨String.mk (c :: cs) :: ts, true⟩)
      | none => (some 0, ⟨t :: ts, false⟩)
  else (none, s)

end IStream

/-- The next `k` results of `std::getline(ifstr, line)` and the lines left
after them; at the end of the file `getline` leaves the line empty. -/
def getlines (k : ℕ) (lines : List String) : List String × List String :=
  (lines.take k ++ List.replicate (k - lines.length) "", lines.drop k)

/-! ## The editor (src/circuit_simulator_gui.cpp) -/

/-- Type of a component (`ComponentType`). -/
inductive ComponentType
  | RESISTOR
  | CAPACITOR
  | INDUCTOR
  | VOLTAGE_SOURCE
  | CURRENT_SOURCE
  | AC_VOLTAGE_SOURCE
deriving DecidableEq, Repr

/-- Terminal of a component (`TerminalType`). -/
inductive TerminalType
  | INPUT
  | OUTPUT
deriving DecidableEq, Repr

/-- The editor's current action (`action_`). -/
inductive Action
  | NO_ACTION
  | MOVING_COMPONENT
  | ROTATING_COMPONENT
  | DELETING_ELEMENT
  | ADDING_COMPONENT
  | DRAWING_WIRE
  | EDIT_VALUE
  | ADDING_GROUND
deriving DecidableEq, Repr

/-- A `Component`: name, type, value and the nodes bound to its two terminals
(a node is referred to by its name, `none` is `nullptr`). -/
structure Component where
  name : String
  type : ComponentType
  value : ℚ
  input : Option String
  output : Option String
deriving DecidableEq, Repr

/-- A `GUIComponent`: the component it draws (`GetComponent()`), its position
and its rotation. -/
structure GUIComponent where
  component : Component
  x : ℚ
  y : ℚ
  rot : ℚ
deriving DecidableEq, Repr

namespace GUIComponent

/-- Source: `GetName()`. -/
def GetName (c : GUIComponent) : String := c.component.name

/-- Source: `GetType()`. -/
def GetType (c : GUIComponent) : ComponentType := c.component.type

/-- Source: `GetValue()`. -/
def GetValue (c : GUIComponent) : ℚ := c.component.value

/-- Source: `GetTerminalNode(terminal)`. -/
def GetTerminalNode (c : GUIComponent) : TerminalType → Option String
  | .INPUT => c.component.input
  | .OUTPUT => c.component.output

/-- The component made by `std::make_shared<GUIResistor>(name)` and its
siblings: value `0` (the default of `resistor.hpp` and `inductor.hpp`), no
node at either terminal, at the origin, not rotated. -/
def named (type : ComponentType) (name : String) : GUIComponent :=
  ⟨⟨name, type, 0, none, none⟩, 0, 0, 0⟩

/-- The component made by `std::make_shared<GUIResistor>(name, value, in, out)`
and its siblings. -/
def connected (type : ComponentType) (name : String) (value : ℚ) (inp out : String) :
    GUIComponent :=
  ⟨⟨name, type, value, some inp, some out⟩, 0, 0, 0⟩

end GUIComponent

/-- A `GUIWire`: its node, the positions of its vertices, and the components
connected to it at their `INPUT` and at their `OUTPUT` terminal (the two
entries of `components_`), each component given by its name. -/
structure GUIWire where
  node_ : Option String
  vertices : List (ℚ × ℚ)
  inputs : List String
  outputs : List String
deriving DecidableEq, Repr

/-- Modelled from the spec: the `Circuit` class (`circuit.hpp`, `circuit.cpp`),
as far as the editor's file handling uses it: "nodes: set of Node (unique by
id), components: ordered list of Component". -/
structure Circuit where
  nodes_ : List Node
  components_ : List Component
deriving DecidableEq, Repr

namespace Circuit

/-- Modelled from the spec: the constructor `Circuit()`, "constructed empty". -/
def new : Circuit := ⟨[], []⟩

/-- Modelled from the spec: `Circuit::AddNode(name)`, "creates or
returns-existing node by name".  The node returned is the one called `name`. -/
def AddNode (c : Circuit) (name : String) : Circuit :=
  if c.nodes_.any fun n => n.name = name then c
  else { c with nodes_ := c.nodes_ ++ [⟨name, NodeType.NORMAL⟩] }

/-- Modelled from the spec: `Circuit::AddComponent(component)`, which appends
to the ordered list of components. -/
def AddComponent (c : Circuit) (comp : Component) : Circuit :=
  { c with components_ := c.components_ ++ [comp] }

end Circuit

/-- What the pointer `addingWire_` points to: the wire at a position of the
list `wires_`, or a wire that has been erased from the list and lives on
through the pointer. -/
inductive WireRef
  | listed (position : ℕ)
  | unlisted (wire : GUIWire)
deriving DecidableEq, Repr

/-- The members of `CircuitSimulatorGUI` that the modelled operations read or
write.  A pointer member holds the object it points to, `none` for
`nullptr`; `addingWire_`, through which the wire is changed in place, says
where the wire is. -/
structure CircuitSimulatorGUI where
  action_ : Action
  movingComponent_ : Option GUIComponent
  addingComponent_ : Option GUIComponent
  editingComponent_ : Option GUIComponent
  addingWire_ : Option WireRef
  addingGround_ : Option GUIGround
  components_ : List GUIComponent
  wires_ : List GUIWire
  grounds_ : List GUIGround
  circuit_ : Circuit
  resistors_ : ℕ
  inductors_ : ℕ
  capacitors_ : ℕ
  sources_ : ℕ
  nodes_ : ℕ
  zoom_ : ℚ
  popup_value_ : ℚ
deriving DecidableEq, Repr

namespace CircuitSimulatorGUI

/-- The editor when the program starts: nothing placed, all counters `0`. -/
def initial : CircuitSimulatorGUI :=
  { action_ := .NO_ACTION, movingComponent_ := none, addingComponent_ := none,
    editingComponent_ := none, addingWire_ := none, addingGround_ := none,
    components_ := [], wires_ := [], grounds_ := [], circuit_ := Circuit.new,
    resistors_ := 0, inductors_ := 0, capacitors_ := 0, sources_ := 0, nodes_ := 0,
    zoom_ := 1, popup_value_ := 0 }

/-- Source: `CircuitSimulatorGUI::AddingComponent(component)`. -/
def AddingComponent (e : CircuitSimulatorGUI) (component : GUIComponent) :
    CircuitSimulatorGUI :=
  { e with
    components_ := e.components_ ++ [component]
    addingComponent_ := some component
    movingComponent_ := some component
    action_ := .ADDING_COMPONENT }

/-- Source: `CircuitSimulatorGUI::Reset()`.  It starts with
`CancelAllActions()`, taken here to run to its end: that call sets `action_` to
`NO_ACTION` and the five pointers to null, and what it removes from the three
lists does not show, since the lists are cleared afterwards. -/
def Reset (e : CircuitSimulatorGUI) : CircuitSimulatorGUI :=
  { e with
    action_ := .NO_ACTION
    movingComponent_ := none
    addingComponent_ := none
    addingWire_ := none
    editingComponent_ := none
    addingGround_ := none
    circuit_ := Circuit.new
    resistors_ := 0
    inductors_ := 0
    capacitors_ := 0
    sources_ := 0
    nodes_ := 0
    components_ := []
    wires_ := []
    grounds_ := []
    zoom_ := 1
    popup_value_ := 0 }

end CircuitSimulatorGUI

/-! ### `SaveCircuit` -/

/-- Source: the `switch (comp->GetType())` of `SaveCircuit`: the kind letter
and a space for the five kinds of the file format, nothing for any other
type. -/
def kindPrefix : ComponentType → String
  | .RESISTOR => "R "
  | .CAPACITOR => "C "
  | .INDUCTOR => "L "
  | .VOLTAGE_SOURCE => "V "
  | .CURRENT_SOURCE => "J "
  | _ => ""

/-- Source: `(node ? node->GetName() : "-")`. -/
def nodeText : Option String → String
  | some name => name
  | none => "-"

/-- Source: the body of the loop over `components_` in `SaveCircuit`: the line
written for one component. -/
def componentLine (ft : FloatText) (comp : GUIComponent) : String :=
  kindPrefix comp.GetType ++ comp.GetName ++ " " ++
    nodeText (comp.GetTerminalNode .INPUT) ++ " " ++
    nodeText (comp.GetTerminalNode .OUTPUT) ++ " " ++
    ft.write comp.GetValue ++ " " ++
    ft.write comp.x ++ " " ++
    ft.write comp.y ++ " " ++
    ft.write comp.rot

/-- Source: the body of the loop over `wires_` in `SaveCircuit`: the lines
written for one wire.  The loop over `GetComponents()` goes through the map in
key order, `INPUT` before `OUTPUT`. -/
def wireLines (ft : FloatText) (wire : GUIWire) : List String :=
  ["W " ++ nodeText wire.node_ ++ " " ++ toString wire.vertices.length ++ " " ++
    toString (wire.inputs.length + wire.outputs.length)] ++
  wire.inputs.map (fun name => "IN " ++ name) ++
  wire.outputs.map (fun name => "OUT " ++ name) ++
  wire.vertices.map (fun v => ft.write v.1 ++ " " ++ ft.write v.2)

/-- Source: the loop over `grounds_` in `SaveCircuit`: the lines written, and
whether the loop ran to its end.  `gnd->GetNode()->GetName()` on a marker
without a node dereferences a null pointer: the loop stops there. -/
def groundLines (ft : FloatText) : List GUIGround → List String × Bool
  | [] => ([], true)
  | gnd :: rest =>
    match gnd.node_ with
    | none => ([], false)
    | some name =>
      let r := groundLines ft rest
      (("G " ++ name ++ " " ++ ft.write gnd.x ++ " " ++ ft.write gnd.y) :: r.1, r.2)

namespace CircuitSimulatorGUI

/-- Source: `CircuitSimulatorGUI::SaveCircuit(file)`: the lines written to the
file, each ended by `std::endl`, and whether the function ran to its end. -/
def SaveCircuit (ft : FloatText) (e : CircuitSimulatorGUI) : List String × Bool :=
  let comps := e.components_.map (componentLine ft)
  let wires := (e.wires_.map (wireLines ft)).flatten
  let grounds := groundLines ft e.grounds_
  (comps ++ wires ++ grounds.1, grounds.2)

end CircuitSimulatorGUI

/-- The results of `std::getline` on a file made of the given lines, each
ended by a newline: the lines, then one empty line at the end of the file. -/
def fileLines (written : List String) : List String := written ++ [""]

/-! ### `LoadCircuit` -/

/-- Modelled from the spec: `GUIWire::ConnectComponent(comp, type)`
(`gui_wire.cpp` is missing); by its declaration and the record `IN|OUT name`
of the file format it appends the component to `components_[type]`. -/
def GUIWire.ConnectComponent (w : GUIWire) (comp : GUIComponent) :
    TerminalType → GUIWire
  | .INPUT => { w with inputs := w.inputs ++ [comp.GetName] }
  | .OUTPUT => { w with outputs := w.outputs ++ [comp.GetName] }

/-- State of the loop of `LoadCircuit`: the editor and the local `comp_map`. -/
structure LoadState where
  gui : CircuitSimulatorGUI
  comp_map : StdMap GUIComponent

/-- Source: the set `c = {"R", "L", "C", "V", "J"}` of `LoadCircuit`. -/
def componentKinds : List String := ["R", "L", "C", "V", "J"]

/-- Source: `components_.push_back(r); circuit_.AddComponent(r->GetComponent());`
of the five constructing branches. -/
def pushComponent (e : CircuitSimulatorGUI) (r : GUIComponent) : CircuitSimulatorGUI :=
  { e with
    components_ := e.components_ ++ [r]
    circuit_ := e.circuit_.AddComponent r.component }

/-- Source: the branch `if (c.find(type) != c.end())` of `LoadCircuit`, a
component record.  SFML's reduction of the rotation to `[0, 360)` is left
out. -/
def loadComponent (ft : FloatText) (type : String) (iss : IStream) (st : LoadState) :
    Except String LoadState :=
  let (name, iss) := iss.getString
  let (input_node, iss) := iss.getString
  let (output_node, iss) := iss.getString
  let (value, iss) := iss.getFloat ft
  let (x, iss) := iss.getFloat ft
  let (y, iss) := iss.getFloat ft
  let (rot, _) := iss.getFloat ft
  let e := { st.gui with
    circuit_ := (st.gui.circuit_.AddNode input_node).AddNode output_node }
  let pushed : Except String (CircuitSimulatorGUI × GUIComponent) :=
    if type = "R" then
      let r := GUIComponent.connected .RESISTOR name value input_node output_node
      .ok (pushComponent { e with resistors_ := e.resistors_ + 1 } r, r)
    else if type = "L" then
      let l := GUIComponent.connected .INDUCTOR name value input_node output_node
      .ok (pushComponent { e with inductors_ := e.inductors_ + 1 } l, l)
    else if type = "C" then
      let cap := GUIComponent.connected .CAPACITOR name value input_node output_node
      .ok (pushComponent { e with capacitors_ := e.capacitors_ + 1 } cap, cap)
    else if type = "V" then
      let v := GUIComponent.connected .VOLTAGE_SOURCE name value input_node output_node
      .ok (pushComponent { e with sources_ := e.sources_ + 1 } v, v)
    else if type = "J" then
      let j := GUIComponent.connected .CURRENT_SOURCE name value input_node output_node
      .ok (pushComponent { e with sources_ := e.sources_ + 1 } j, j)
    else
      .error "Invalid component type found in netlist."
  match pushed with
  | .error msg => .error msg
  | .ok (e, back) =>
    -- comp = components_.back(); comp->setRotation(rot); comp->setPosition(x, y)
    let comp := { back with rot := rot, x := x, y := y }
    .ok { gui := { e with components_ := e.components_.dropLast ++ [comp] }
          comp_map := st.comp_map.assign name comp }

/-- Source: the body of the loop `for (int j = 0; j < comps; j++)` of the wire
branch, on the line it reads. -/
def connectLine (comp_map : StdMap GUIComponent) (w : GUIWire) (line : String) : GUIWire :=
  let iss := IStream.ofLine line
  let (term, iss) := iss.getString
  let (nam, _) := iss.getString
  let terminal := if term = "IN" then TerminalType.INPUT else TerminalType.OUTPUT
  match comp_map.find nam with
  | some comp => w.ConnectComponent comp terminal
  | none => w

/-- Source: the body of the loop `for (int i = 0; i < verticies; i++)` of the
wire branch: the position read from a line. -/
def vertexOfLine (ft : FloatText) (line : String) : ℚ × ℚ :=
  let iss := IStream.ofLine line
  let (x, iss) := iss.getFloat ft
  let (y, _) := iss.getFloat ft
  (x, y)

/-- Source: the branch `type == "W"` of `LoadCircuit`, a wire record; `rest` are
the lines after the record's first line, and the lines left are returned.
`w->SetNode(n)` makes `n` the node of the wire.  `w->resize(verticies)` leaves
the wire with `verticies` vertices, whose positions the second loop sets one
by one; with a negative count it asks for more vertices than a vector can
hold and throws.  The counts `verticies` and `comps` are declared without a
value and used whether or not the extraction wrote them: a count left
unwritten is an indeterminate number, and so is the number of lines the loops
take (`indeterminate value`, undefined behaviour). -/
def loadWire (ft : FloatText) (iss : IStream) (rest : List String) (st : LoadState) :
    Except String (LoadState × List String) :=
  let (node, iss) := iss.getString
  let (verticies, iss) := iss.getInt
  let (comps, _) := iss.getInt
  let circuit := st.gui.circuit_.AddNode node
  match verticies with
  | none => .error "indeterminate value"
  | some verticies =>
    if verticies < 0 then .error "std::length_error"
    else
      let w : GUIWire := ⟨some node, List.replicate verticies.toNat (0, 0), [], []⟩
      match comps with
      | none => .error "indeterminate value"
      | some comps =>
        let (connLines, rest) := getlines comps.toNat rest
        let w := connLines.foldl (connectLine st.comp_map) w
        let (vertexLines, rest) := getlines verticies.toNat rest
        let w := { w with vertices := vertexLines.map (vertexOfLine ft) }
        .ok ({ st with
            gui := { st.gui with circuit_ := circuit, wires_ := st.gui.wires_ ++ [w] } },
          rest)

/-- Source: the branch `type == "G"` of `LoadCircuit`, a ground record;
`g->SetNode(n)` makes the node a ground node. -/
def loadGround (ft : FloatText) (iss : IStream) (st : LoadState) : LoadState :=
  let (node, iss) := iss.getString
  let (x, iss) := iss.getFloat ft
  let (y, _) := iss.getFloat ft
  let circuit := st.gui.circuit_.AddNode node
  let circuit := { circuit with nodes_ := SetNodeType circuit.nodes_ node NodeType.GROUND }
  let g : GUIGround := ⟨some node, x, y⟩
  { st with gui := { st.gui with circuit_ := circuit, grounds_ := st.gui.grounds_ ++ [g] } }

/-- Source: one pass of the loop `while (!ifstr.eof())` of `LoadCircuit` on the
line `line` that `getline` returned; `rest` are the lines after it, and the
lines left for the next pass are returned. -/
def loadRecord (ft : FloatText) (line : String) (rest : List String) (st : LoadState) :
    Except String (LoadState × List String) :=
  if line.length = 0 then .ok (st, rest)
  else
    let (type, iss) := (IStream.ofLine line).getString
    if !iss.good then .error "Error while reading netlist file."
    else if type ∈ componentKinds then
      match loadComponent ft type iss st with
      | .error msg => .error msg
      | .ok st => .ok (st, rest)
    else if type = "W" then loadWire ft iss rest st
    else if type = "G" then .ok (loadGround ft iss st, rest)
    else .ok (st, rest)

/-- Source: the loop `while (!ifstr.eof())` of `LoadCircuit`, with a bound on
the number of passes; every pass takes at least one line, so as many passes as
there are lines are enough. -/
def loadLoop (ft : FloatText) : ℕ → List String → LoadState → Except String LoadState
  | _, [], st => .ok st
  | 0, _ :: _, _ => .error "out of fuel"
  | fuel + 1, line :: rest, st =>
    match loadRecord ft line rest st with
    | .error msg => .error msg
    | .ok (st, rest) => loadLoop ft fuel rest st

namespace CircuitSimulatorGUI

/-- Source: `CircuitSimulatorGUI::LoadCircuit(file)` on a file that could be
opened, given by the lines `getline` reads from it. -/
def LoadCircuit (ft : FloatText) (e : CircuitSimulatorGUI) (lines : List String) :
    Except String CircuitSimulatorGUI :=
  match loadLoop ft lines.length lines ⟨e.Reset, StdMap.empty⟩ with
  | .error msg => .error msg
  | .ok st => .ok st.gui

end CircuitSimulatorGUI

/-! ### Adding components -/

/-- The five keys (with Ctrl) and menu items that add a component. -/
inductive ComponentKey
  | R
  | C
  | L
  | V
  | J
deriving DecidableEq, Repr

namespace CircuitSimulatorGUI

/-- Source: the component made for a key or menu item, named by the kind
letter and the counter of its kind: `"R" + std::to_string(resistors_)`,
`"C" + std::to_string(capacitors_)`, `"L" + std::to_string(inductors_)`,
`"V" + std::to_string(sources_)`, `"J" + std::to_string(sources_)`. -/
def generated (e : CircuitSimulatorGUI) : ComponentKey → GUIComponent
  | .R => GUIComponent.named .RESISTOR ("R" ++ toString e.resistors_)
  | .C => GUIComponent.named .CAPACITOR ("C" ++ toString e.capacitors_)
  | .L => GUIComponent.named .INDUCTOR ("L" ++ toString e.inductors_)
  | .V => GUIComponent.named .VOLTAGE_SOURCE ("V" ++ toString e.sources_)
  | .J => GUIComponent.named .CURRENT_SOURCE ("J" ++ toString e.sources_)

/-- Source: `ProcessEvents`, case `sf::Event::KeyPressed`, for Ctrl+R, Ctrl+C,
Ctrl+L, Ctrl+V and Ctrl+J. -/
def KeyPressed (e : CircuitSimulatorGUI) (key : ComponentKey) : CircuitSimulatorGUI :=
  if e.editingComponent_.isSome && e.action_ == Action.EDIT_VALUE then e
  else if e.addingComponent_.isNone && e.action_ != Action.ADDING_COMPONENT then
    e.AddingComponent (e.generated key)
  else e

/-- Source: `RenderMenuBar`, the five items of the menu "Add component..". -/
def MenuItem (e : CircuitSimulatorGUI) (key : ComponentKey) : CircuitSimulatorGUI :=
  e.AddingComponent (e.generated key)

/-- Source: `ProcessEvents`, the block `if (addingComponent_) { … }` of the left
mouse button: the pending component is counted and added to the circuit. -/
def placeAddingComponent (e : CircuitSimulatorGUI) : CircuitSimulatorGUI :=
  match e.addingComponent_ with
  | none => e
  | some adding =>
    let e : CircuitSimulatorGUI :=
      match adding.GetType with
      | .RESISTOR => { e with resistors_ := e.resistors_ + 1 }
      | .CAPACITOR => { e with capacitors_ := e.capacitors_ + 1 }
      | .INDUCTOR => { e with inductors_ := e.inductors_ + 1 }
      | .VOLTAGE_SOURCE => { e with sources_ := e.sources_ + 1 }
      | .CURRENT_SOURCE => { e with sources_ := e.sources_ + 1 }
      | _ => e
    { e with
      circuit_ := e.circuit_.AddComponent adding.component
      addingComponent_ := none
      movingComponent_ := none
      action_ := .NO_ACTION }

/-- Source: `ProcessEvents`, left `sf::Event::MouseButtonPressed`, in a state
with `action_ == ADDING_COMPONENT`: there the loop over the components only
notes the clicked component and the blocks guarded by `ADDING_GROUND`,
`DELETING_ELEMENT` and `DRAWING_WIRE` do not run, so the click does what the
block `if (addingComponent_)` does.  Other states are outside this model
(`none`). -/
def MouseButtonPressed (e : CircuitSimulatorGUI) : Option CircuitSimulatorGUI :=
  if e.action_ = Action.ADDING_COMPONENT then some e.placeAddingComponent else none

end CircuitSimulatorGUI

/-- A step of a session with the editor. -/
inductive Event
  | openFile (lines : List String)
  | key (k : ComponentKey)
  | menu (k : ComponentKey)
  | click
deriving DecidableEq, Repr

/-- One step of a session; an exception of `LoadCircuit` or a click outside
the model ends it. -/
def Event.apply (ft : FloatText) (e : CircuitSimulatorGUI) : Event → Except String CircuitSimulatorGUI
  | .openFile lines => e.LoadCircuit ft lines
  | .key k => .ok (e.KeyPressed k)
  | .menu k => .ok (e.MenuItem k)
  | .click =>
    match e.MouseButtonPressed with
    | some e => .ok e
    | none => .error "click outside the model"

/-- A session: the steps in order, from the editor `e`. -/
def session (ft : FloatText) : CircuitSimulatorGUI → List Event → Except String CircuitSimulatorGUI
  | e, [] => .ok e
  | e, ev :: rest =>
    match ev.apply ft e with
    | .error msg => .error msg
    | .ok e => session ft e rest

/-! ### A text form of whole numbers, to run the model on examples -/

/-- A rational in decimal: the numerator, and the denominator when it is not
`1`. -/
def decimal (q : ℚ) : String :=
  if q.den = 1 then toString q.num else toString q.num ++ "/" ++ toString q.den

/-- A text form of numbers that writes whole numbers in decimal, as the
streams do for whole `float`s of up to six digits, and reads them back. -/
def wholeText : FloatText where
  write q := if IsToken (decimal q) then decimal q else "0"
  read s := (readInt s).map fun n => (n : ℚ)
  write_token q := by
    by_cases h : IsToken (decimal q)
    · simp only [h, if_true]
    · simp only [h, if_false]
      decide

/-- The kind letter of the file format for the five kinds of component it
has: R, L, C, V, J. -/
def kindLetter : ComponentType → Option String
  | .RESISTOR => some "R"
  | .INDUCTOR => some "L"
  | .CAPACITOR => some "C"
  | .VOLTAGE_SOURCE => some "V"
  | .CURRENT_SOURCE => some "J"
  | _ => none

/-- The eight fields `kind name in_node out_node value x y rotation` of the
record of a component. -/
def componentFields (ft : FloatText) (kind : String) (comp : GUIComponent) : List String :=
  [kind, comp.GetName, nodeText (comp.GetTerminalNode .INPUT),
    nodeText (comp.GetTerminalNode .OUTPUT), ft.write comp.GetValue, ft.write comp.x,
    ft.write comp.y, ft.write comp.rot]

/-- An editor with a resistor between the nodes `N001` and `N002`, a current
source placed but not wired, a wire at `N001` and a ground marker at `N002`. -/
def exampleEditor : CircuitSimulatorGUI :=
  { CircuitSimulatorGUI.initial with
    components_ := [⟨⟨"R0", .RESISTOR, 50, some "N001", some "N002"⟩, 100, 60, 90⟩,
      ⟨⟨"J0", .CURRENT_SOURCE, 2, none, none⟩, 0, 0, 0⟩]
    wires_ := [⟨some "N001", [(100, 20), (140, 20)], ["R0"], []⟩]
    grounds_ := [⟨some "N002", 100, 100⟩]
    resistors_ := 1
    sources_ := 1 }

/-! ## A single DC voltage source -/

/-- The matrix `A = [[0, 1], [1, 0]]` that the voltage-source stamp produces for
node index 0 and branch index 1, the other terminal at ground. -/
def sourceStampA : Matrix (Fin 2) (Fin 2) Cplx := !![0, 1; 1, 0]


/-! ## Grid and terminals (src/circuit_simulator_gui.cpp) -/

/-- Source: `MapCoordsToClosest(coords)`.  `GRID_SIZE` is defined outside the
source files at hand and is a parameter.  The `%` and `/` of `int` round
toward zero (`Int.tmod`, `Int.tdiv`); the range of `int` is not modelled. -/
def MapCoordsToClosest (GRID_SIZE : ℤ) (coords : ℤ × ℤ) : ℤ × ℤ :=
  let offset_x := Int.tmod coords.1 GRID_SIZE
  let x :=
    if offset_x > Int.tdiv GRID_SIZE 2 then coords.1 + (GRID_SIZE - offset_x)
    else coords.1 - offset_x
  let offset_y := Int.tmod coords.2 GRID_SIZE
  let y :=
    if offset_y > Int.tdiv GRID_SIZE 2 then coords.2 + (GRID_SIZE - offset_y)
    else coords.2 - offset_y
  (x, y)

/-- An `sf::FloatRect`. -/
structure FloatRect where
  left : ℚ
  top : ℚ
  width : ℚ
  height : ℚ
deriving DecidableEq, Repr

/-- Source: `CircuitSimulatorGUI::TerminalClick(bounds, rot, mouse)`; `abs` is
the absolute value of a `float`. -/
def TerminalClick (bounds : FloatRect) (rot : ℤ) (mouse : ℚ × ℚ) : TerminalType × (ℚ × ℚ) :=
  if rot = 90 ∨ rot = 270 then
    let top := bounds.top
    let bottom := top + bounds.height
    if rot = 90 then
      if |mouse.2 - top| > |mouse.2 - bottom| then
        (TerminalType.OUTPUT, (bounds.left + bounds.width / 2, bottom))
      else
        (TerminalType.INPUT, (bounds.left + bounds.width / 2, top))
    else
      if |mouse.2 - top| > |mouse.2 - bottom| then
        (TerminalType.INPUT, (bounds.left + bounds.width / 2, bottom))
      else
        (TerminalType.OUTPUT, (bounds.left + bounds.width / 2, top))
  else
    let left := bounds.left
    let right := left + bounds.width
    if rot = 0 then
      if |mouse.1 - left| > |mouse.1 - right| then
        (TerminalType.OUTPUT, (right, bounds.top + bounds.height / 2))
      else
        (TerminalType.INPUT, (left, bounds.top + bounds.height / 2))
    else
      if |mouse.1 - left| > |mouse.1 - right| then
        (TerminalType.INPUT, (right, bounds.top + bounds.height / 2))
      else
        (TerminalType.OUTPUT, (left, bounds.top + bounds.height / 2))

/-- An edge of a bounding box. -/
inductive Edge
  | top
  | bottom
  | left
  | right
deriving DecidableEq, Repr

/-- The claim's words: the edge of the box nearer to the mouse along the
component's axis, top or bottom for the rotations 90 and 270, left or right
otherwise; ties go to top and left. -/
def nearerEdge (bounds : FloatRect) (rot : ℤ) (mouse : ℚ × ℚ) : Edge :=
  if rot = 90 ∨ rot = 270 then
    if |mouse.2 - (bounds.top + bounds.height)| < |mouse.2 - bounds.top| then Edge.bottom
    else Edge.top
  else
    if |mouse.1 - (bounds.left + bounds.width)| < |mouse.1 - bounds.left| then Edge.right
    else Edge.left

/-- The midpoint of an edge of the box. -/
def edgeMidpoint (bounds : FloatRect) : Edge → ℚ × ℚ
  | .top => (bounds.left + bounds.width / 2, bounds.top)
  | .bottom => (bounds.left + bounds.width / 2, bounds.top + bounds.height)
  | .left => (bounds.left, bounds.top + bounds.height / 2)
  | .right => (bounds.left + bounds.width, bounds.top + bounds.height / 2)

/-- The claim's words: `INPUT` when the edge is top or left at rotation 90 or
0, or bottom or right at rotation 270 or 180, and `OUTPUT` otherwise. -/
def claimedTerminal (rot : ℤ) (edge : Edge) : TerminalType :=
  if ((edge = Edge.top ∨ edge = Edge.left) ∧ (rot = 90 ∨ rot = 0)) ∨
      ((edge = Edge.bottom ∨ edge = Edge.right) ∧ (rot = 270 ∨ rot = 180)) then
    TerminalType.INPUT
  else TerminalType.OUTPUT

/-- The rotation whose branch `TerminalClick` takes: 0, 90 and 270 have their
own, every other rotation takes the branch written for 180. -/
def branchRotation (rot : ℤ) : ℤ :=
  if rot = 0 ∨ rot = 90 ∨ rot = 270 then rot else 180

/-- The other terminal. -/
def TerminalType.other : TerminalType → TerminalType
  | .INPUT => .OUTPUT
  | .OUTPUT => .INPUT

/-! ## Editing a value (src/circuit_simulator_gui.cpp, `RenderPopup`) -/

/-- Class of a component (`ComponentClass`). -/
inductive ComponentClass
  | PASSIVE
  | ACTIVE
deriving DecidableEq, Repr

/-- Modelled from the spec: `GetClass()` (`component.hpp` and the classes of
the components are missing): "variants Resistor, Inductor, Capacitor,
VoltageSource, CurrentSource, subtyped Passive/Active", "Active components
(voltage/current sources)"; `ACVoltageSource` derives from `ActiveComponent`
in `ac_voltage_source.cpp`. -/
def GUIComponent.GetClass (c : GUIComponent) : ComponentClass :=
  match c.GetType with
  | .RESISTOR => .PASSIVE
  | .CAPACITOR => .PASSIVE
  | .INDUCTOR => .PASSIVE
  | .VOLTAGE_SOURCE => .ACTIVE
  | .CURRENT_SOURCE => .ACTIVE
  | .AC_VOLTAGE_SOURCE => .ACTIVE

/-- Source: `SetValue(newval)` (as in `ac_voltage_source.cpp`): the value is
replaced. -/
def GUIComponent.SetValue (c : GUIComponent) (newval : ℚ) : GUIComponent :=
  { c with component := { c.component with value := newval } }

/-- Source: `CircuitSimulatorGUI::RenderPopup`, a frame in which the button
"OK" is pressed: what becomes of the object `editingComponent_` points to, and
of the pointer.  `none` when the popup is not shown (`editingComponent_` null
or `action_` not `EDIT_VALUE`). -/
def CircuitSimulatorGUI.RenderPopupOK (e : CircuitSimulatorGUI) :
    Option (GUIComponent × Option GUIComponent) :=
  match e.editingComponent_ with
  | none => none
  | some editing =>
    if e.action_ = Action.EDIT_VALUE then
      let editing :=
        if e.popup_value_ > 0 ∨ editing.GetClass = ComponentClass.ACTIVE then
          editing.SetValue e.popup_value_
        else editing
      some (editing, none)
    else none

/-- Source: `CircuitSimulatorGUI::RenderPopup`, a frame in which the button
"Cancel" is pressed. -/
def CircuitSimulatorGUI.RenderPopupCancel (e : CircuitSimulatorGUI) :
    Option (GUIComponent × Option GUIComponent) :=
  match e.editingComponent_ with
  | none => none
  | some editing => if e.action_ = Action.EDIT_VALUE then some (editing, none) else none

/-- An editor in which the value of the resistor `R0` is being edited and `0`
has been entered. -/
def editingEditor : CircuitSimulatorGUI :=
  { exampleEditor with
    action_ := Action.EDIT_VALUE
    editingComponent_ := some ⟨⟨"R0", .RESISTOR, 50, some "N001", some "N002"⟩, 100, 60, 90⟩
    popup_value_ := 0 }

/-! ## Clicking a wire (src/circuit_simulator_gui.cpp, `WireClick`)

The geometry is written over any ordered field `K`: the editor computes with
`K = ℚ` (the idealised `float`), and the statement about the distance to a
segment is made over `K = ℝ`. -/

/-- Source: `dot(a, b)`. -/
def dot {K : Type} [LinearOrderedField K] (a b : K × K) : K :=
  a.1 * b.1 + a.2 * b.2

/-- The number under the root of `distance(a, b)`:
`std::pow(a.x - b.x, 2) + std::pow(a.y - b.y, 2)`.  `distance(a, b)` is its
square root. -/
def distanceSq {K : Type} [LinearOrderedField K] (a b : K × K) : K :=
  (a.1 - b.1) ^ 2 + (a.2 - b.2) ^ 2

/-- Source: the `l2` of `WireClick`. -/
def lengthSq {K : Type} [LinearOrderedField K] (P_1 P_2 : K × K) : K :=
  (P_2.1 - P_1.1) ^ 2 + (P_2.2 - P_1.2) ^ 2

/-- Source: the `t` of `WireClick`,
`std::max(0.0f, std::min(1.0f, dot(mouse - P_1, P_2 - P_1) / l2))`. -/
def clampedParameter {K : Type} [LinearOrderedField K] (mouse P_1 P_2 : K × K) : K :=
  max 0 (min 1 (dot (mouse.1 - P_1.1, mouse.2 - P_1.2) (P_2.1 - P_1.1, P_2.2 - P_1.2) /
    lengthSq P_1 P_2))

/-- The point `P_1 + s * (P_2 - P_1)` of the line through `P_1` and `P_2`; on
the segment when `0 ≤ s ≤ 1`. -/
def pointAt {K : Type} [LinearOrderedField K] (P_1 P_2 : K × K) (s : K) : K × K :=
  (P_1.1 + s * (P_2.1 - P_1.1), P_1.2 + s * (P_2.2 - P_1.2))

/-- Source: the `projection` of `WireClick`, `P_1 + t * (P_2 - P_1)`. -/
def projection {K : Type} [LinearOrderedField K] (mouse P_1 P_2 : K × K) : K × K :=
  pointAt P_1 P_2 (clampedParameter mouse P_1 P_2)

/-- Source: the body of the inner loop of `WireClick` up to `d`: the square of
the `d` it computes for the segment from `P_1` to `P_2`. -/
def segmentDistanceSq {K : Type} [LinearOrderedField K] (mouse P_1 P_2 : K × K) : K :=
  if lengthSq P_1 P_2 = 0 then distanceSq mouse P_1
  else distanceSq mouse (projection mouse P_1 P_2)

/-- Source: the test `abs(d) <= 5` of `WireClick`, for `d` the square root of
`segmentDistanceSq` and `abs` the absolute value of a `float`: `d` is not
negative, and `d ≤ 5` exactly when its square is at most `25`. -/
def segmentHit (mouse P_1 P_2 : ℚ × ℚ) : Bool :=
  decide (segmentDistanceSq mouse P_1 P_2 ≤ 25)

/-- Source: the inner loop of `WireClick` from position `i` on, for a wire with
at least one vertex: whether a segment `(vertex i, vertex i + 1)` is hit. -/
def segmentsHit (mouse : ℚ × ℚ) : List (ℚ × ℚ) → Bool
  | P_1 :: P_2 :: rest => segmentHit mouse P_1 P_2 || segmentsHit mouse (P_2 :: rest)
  | _ => false

/-- Source: the inner loop `for (int i = 0; i < (*it)->getVertexCount() - 1; i++)`
of `WireClick` on one wire.  `getVertexCount()` is unsigned: for a wire without
vertices the bound `0 - 1` wraps to the largest `size_t`, the loop runs and
reads vertices that do not exist (`none`: undefined behaviour). -/
def wireHit (mouse : ℚ × ℚ) (wire : GUIWire) : Option Bool :=
  match wire.vertices with
  | [] => none
  | vertices => some (segmentsHit mouse vertices)

/-- Source: `CircuitSimulatorGUI::WireClick(mouse)` on the list `wires_`: the
position in the list of the iterator returned, `wires_.size()` for
`wires_.end()`; `none` for undefined behaviour. -/
def WireClick : List GUIWire → ℚ × ℚ → Option ℕ
  | [], _ => some 0
  | wire :: rest, mouse =>
    match wireHit mouse wire with
    | none => none
    | some true => some 0
    | some false => (WireClick rest mouse).map (· + 1)

/-- The claim's words: the wire has a segment between consecutive vertices at
Euclidean distance at most 5 from the mouse (the square of the distance is at
most 25). -/
def HasNearSegment (mouse : ℚ × ℚ) (wire : GUIWire) : Prop :=
  ∃ i P_1 P_2, wire.vertices[i]? = some P_1 ∧ wire.vertices[i + 1]? = some P_2 ∧
    segmentDistanceSq mouse P_1 P_2 ≤ 25

/-! ## `CancelAllActions` (src/circuit_simulator_gui.cpp) -/

namespace WireRef

/-- The wire the pointer points to; `none` when the position is not one of the
list (a state the editor cannot be in). -/
def get (wires : List GUIWire) : WireRef → Option GUIWire
  | .listed position => wires[position]?
  | .unlisted wire => some wire

/-- The wire lists after the wire pointed to has been changed by `f`: the list
`wires_`, changed at the position of a listed wire. -/
def modify (wires : List GUIWire) (f : GUIWire → GUIWire) : WireRef → List GUIWire
  | .listed position => wires.modify f position
  | .unlisted _ => wires

end WireRef

/-- Source: `~GUIGround()` as it shows in the circuit: the node of the
destroyed marker, if it has one, becomes `NORMAL`. -/
def destroyGround (c : Circuit) (gnd : GUIGround) : Circuit :=
  match gnd.node_ with
  | some node => { c with nodes_ := SetNodeType c.nodes_ node NodeType.NORMAL }
  | none => c

namespace CircuitSimulatorGUI

/-- Source: `CircuitSimulatorGUI::CancelAllActions()`.  `pop_back()` on an empty
list is undefined behaviour and `resize` of a wire without vertices to
`0 - 1` vertices throws; both end the run with an error.  The marker removed
from `grounds_` is destroyed, and so is the marker `addingGround_` pointed to
(the same marker, or one that is in no list any more) when the pointer is set
to null.  The destructors of components and wires are not among the sources
and are taken to leave the circuit alone. -/
def CancelAllActions (e : CircuitSimulatorGUI) : Except String CircuitSimulatorGUI := do
  let e := { e with action_ := Action.NO_ACTION, movingComponent_ := none }
  let e ←
    if e.addingComponent_.isSome then
      if e.components_.isEmpty then throw "pop_back() on an empty list"
      else pure { e with components_ := e.components_.dropLast }
    else pure e
  let e := { e with addingComponent_ := none }
  let e ←
    match e.addingWire_ with
    | none => pure e
    | some addingWire =>
      match addingWire.get e.wires_ with
      | none => throw "addingWire_ points to no wire"
      | some wire =>
        if wire.vertices.length = 2 then
          if e.wires_.isEmpty then throw "pop_back() on an empty list"
          else pure { e with wires_ := e.wires_.dropLast }
        else if wire.vertices.length = 0 then throw "std::length_error"
        else
          pure { e with
            wires_ := addingWire.modify e.wires_
              (fun w => { w with vertices := w.vertices.dropLast }) }
  let e ←
    match e.addingGround_ with
    | none => pure e
    | some addingGround =>
      match e.grounds_.getLast? with
      | none => throw "pop_back() on an empty list"
      | some back =>
        pure { e with
          grounds_ := e.grounds_.dropLast
          circuit_ := destroyGround (destroyGround e.circuit_ back) addingGround }
  pure { e with addingWire_ := none, editingComponent_ := none, addingGround_ := none }

/-- Source: `wires_.remove(addingWire_)`, the first statement of the "closed
loop" branch of the left mouse button: the wire leaves the list and lives on
through the pointer. -/
def removeAddingWire (e : CircuitSimulatorGUI) : CircuitSimulatorGUI :=
  match e.addingWire_ with
  | some (.listed position) =>
    match e.wires_[position]? with
    | some wire =>
      { e with wires_ := e.wires_.eraseIdx position, addingWire_ := some (.unlisted wire) }
    | none => e
  | _ => e

end CircuitSimulatorGUI

/-- The editor after Ctrl+G, Ctrl+D and a click on the new marker: the marker
at `N002` is placed, the new marker has been erased from `grounds_` and
`addingGround_` still points to it. -/
def erasedPendingGround : CircuitSimulatorGUI :=
  { exampleEditor with
    action_ := Action.DELETING_ELEMENT
    addingGround_ := some ⟨none, 40, 40⟩
    circuit_ := ⟨[⟨"N001", NodeType.NORMAL⟩, ⟨"N002", NodeType.GROUND⟩],
      [⟨"R0", .RESISTOR, 50, some "N001", some "N002"⟩]⟩ }

/-- An editor in which a wire is being drawn that has one fixed vertex and the
vertex that follows the mouse; an older wire is in the list before it. -/
def drawingEditor : CircuitSimulatorGUI :=
  { exampleEditor with
    action_ := Action.DRAWING_WIRE
    wires_ := [⟨some "N001", [(100, 20), (140, 20)], ["R0"], []⟩,
      ⟨some "N002", [(100, 100), (100, 120)], ["R0"], []⟩]
    addingWire_ := some (.listed 1) }

/-! ## Wire records -/

/-- The first line that `SaveCircuit` writes for a wire,
`W node vertex_count conn_count`. -/
def wireHeader (wire : GUIWire) : String :=
  "W " ++ nodeText wire.node_ ++ " " ++ toString wire.vertices.length ++ " " ++
    toString (wire.inputs.length + wire.outputs.length)

/-- The lines `IN name` and `OUT name` that `SaveCircuit` writes for a wire. -/
def wireConnections (wire : GUIWire) : List String :=
  wire.inputs.map (fun name => "IN " ++ name) ++ wire.outputs.map (fun name => "OUT " ++ name)

/-- The lines `x y` that `SaveCircuit` writes for a wire. -/
def wireVertices (ft : FloatText) (wire : GUIWire) : List String :=
  wire.vertices.map fun v => ft.write v.1 ++ " " ++ ft.write v.2

/-- A wire whose node has the empty name, the name `LoadCircuit` gives a node
whose field is missing from a record that ends early (`R R1`, `G`). -/
def wireAtUnnamedNode : GUIWire := ⟨some "", [(0, 0), (10, 0)], ["R1"], []⟩

/-! ## Single precision (`float`, `std::complex<float>`)

The definitions above compute with exact numbers.  What the program does where
that matters (a product that underflows, a quotient that is no `float`, a
division by zero) is stated on the definitions of this section, which follow
the arithmetic of IEEE 754 binary32: every result is the exact result rounded
to the nearest `float`, ties to even. -/

/-- A value of the type `float` (IEEE 754 binary32): a finite number
`±m·2^e`, which is a zero with its sign when `m = 0`, an infinity, or NaN.
A `float` has `m < 2^24` and `-149 ≤ e ≤ 104`. -/
inductive Binary32 where
  | finite (negative : Bool) (m : ℕ) (e : ℤ)
  | inf (negative : Bool)
  | nan
deriving DecidableEq, Repr

namespace Binary32

/-- The `float` `+0`. -/
def zero : Binary32 := finite false 0 0

/-- The `float` `1`. -/
def one : Binary32 := finite false 1 0

/-- The number a finite value stands for; `none` for an infinity and for NaN. -/
def toRat : Binary32 → Option ℚ
  | finite negative m e => some ((if negative then -1 else 1) * m * 2 ^ e)
  | _ => none

/-- The value is `+0` or `-0`. -/
def isZero : Binary32 → Bool
  | finite _ m _ => m == 0
  | _ => false

/-- The whole number nearest to `q ≥ 0`; of two equally near, the even one. -/
def roundHalfEven (q : ℚ) : ℕ :=
  if q - ⌊q⌋₊ < 1 / 2 then ⌊q⌋₊
  else if 1 / 2 < q - ⌊q⌋₊ then ⌊q⌋₊ + 1
  else if ⌊q⌋₊ % 2 = 0 then ⌊q⌋₊ else ⌊q⌋₊ + 1

/-- The `float` of sign `negative` nearest to the magnitude `a ≥ 0` (ties to
even): `a` is rounded to a multiple of `2^e`, where `2^e` is the spacing of the
`float`s around `a` (24 significant bits, and `2^-149` below `2^-126`); a
result of `2^128` or more is an infinity. -/
def round (negative : Bool) (a : ℚ) : Binary32 :=
  if a = 0 then finite negative 0 0
  else
    let e := max (Int.log 2 a - 23) (-149)
    let m := roundHalfEven (a / 2 ^ e)
    if (2 : ℚ) ^ 128 ≤ m * 2 ^ e then inf negative else finite negative m e

/-- The `float` nearest to the number `q`. -/
def ofRat (q : ℚ) : Binary32 := round (decide (q < 0)) |q|

/-- Source: `a * b` on `float`s. -/
def mul : Binary32 → Binary32 → Binary32
  | finite s m e, finite t n f => round (xor s t) ((m * n : ℕ) * 2 ^ (e + f))
  | finite s m _, inf t => if m = 0 then nan else inf (xor s t)
  | inf s, finite t n _ => if n = 0 then nan else inf (xor s t)
  | inf s, inf t => inf (xor s t)
  | _, _ => nan

/-- Source: `a / b` on `float`s.  A finite `a ≠ 0` divided by a zero is the
division by zero, with an infinity for result. -/
def div : Binary32 → Binary32 → Binary32
  | finite s m e, finite t n f =>
    if n = 0 then (if m = 0 then nan else inf (xor s t))
    else round (xor s t) ((m : ℚ) * 2 ^ e / (n * 2 ^ f))
  | finite s _ _, inf t => finite (xor s t) 0 0
  | inf s, finite t _ _ => inf (xor s t)
  | _, _ => nan

end Binary32

/-- A value of the type `std::complex<float>`. -/
structure CFloat where
  re : Binary32
  im : Binary32
deriving DecidableEq, Repr

namespace CFloat

/-- The complex number a value with finite parts stands for. -/
def exact (c : CFloat) : Option Cplx :=
  match c.re.toRat, c.im.toRat with
  | some re, some im => some ⟨re, im⟩
  | _, _ => none

/-- The `std::complex<float>` nearest to a complex number, part by part. -/
def ofCplx (c : Cplx) : CFloat := ⟨Binary32.ofRat c.re, Binary32.ofRat c.im⟩

end CFloat

namespace Single

namespace Inductor

/-- The divisor `w * inductance_` of the division in `GetAdmittance`, a
product of two `float`s. -/
def divisor (inductance_ w : Binary32) : Binary32 := Binary32.mul w inductance_

/-- Source: `Inductor::GetAdmittance(w)`, the value
`std::complex<float>(0, 1 / (w * inductance_))`, in the arithmetic of
`float`. -/
def GetAdmittance (inductance_ w : Binary32) : CFloat :=
  ⟨Binary32.zero, Binary32.div Binary32.one (divisor inductance_ w)⟩

end Inductor

/-- Eigen's `A.inverse()` and `A * z` on matrices and vectors of
`std::complex<float>`.  They are library code outside the program, and how
they round is not fixed by the program: they are a parameter here. -/
structure Eigen where
  inverse : {n : ℕ} → Matrix (Fin n) (Fin n) CFloat → Matrix (Fin n) (Fin n) CFloat
  mulVec : {n : ℕ} → Matrix (Fin n) (Fin n) CFloat → (Fin n → CFloat) → Fin n → CFloat

/-- An instance of Eigen's operations, for examples: every coefficient of a
result is the coefficient of the exact result, rounded once; coefficients
that are no numbers count as `0`. -/
def Eigen.rounded : Eigen where
  inverse A := fun i j =>
    CFloat.ofCplx (CircuitSim.inverse (fun i j => ((A i j).exact).getD 0) i j)
  mulVec A z := fun i =>
    CFloat.ofCplx (Matrix.mulVec (fun i j => ((A i j).exact).getD 0)
      (fun i => ((z i).exact).getD 0) i)

/-- Coefficient access `x(i)` of an Eigen vector with an `int` index: `none`
when the index is out of range. -/
def coeff (x : List CFloat) (i : ℤ) : Option CFloat :=
  if 0 ≤ i then x[i.toNat]? else none

/-- The coefficients `x(0), …, x(n-1)` of a vector of dimension `n`. -/
def coeffs {n : ℕ} (x : Fin n → CFloat) : List CFloat := (List.finRange n).map x

/-- Solver state: the members `x_`, `node_voltages_` and
`voltage_source_currents_`, with their values of `std::complex<float>`. -/
structure MNAsolver where
  x_ : List CFloat
  node_voltages_ : StdMap CFloat
  voltage_source_currents_ : StdMap CFloat

namespace MNAsolver

/-- The loop `for (auto const& i : indexes) out[i.first] = x_(i.second);`. -/
def fill (x : List CFloat) : List (String × ℤ) → StdMap CFloat → Option (StdMap CFloat)
  | [], out => some out
  | i :: rest, out =>
    match coeff x i.2 with
    | none => none
    | some v => fill x rest (out.assign i.1 v)

/-- Source: `MNAsolver::solveSteady(A, z, node_indexes, voltage_source_indexes)`
on values of `std::complex<float>`: `x_ = A.inverse() * z` is what Eigen
computes.  The printing to `std::cout` is left out. -/
def solveSteady (eig : Eigen) {n : ℕ} (self : MNAsolver) (A : Matrix (Fin n) (Fin n) CFloat)
    (z : Fin n → CFloat) (node_indexes voltage_source_indexes : StdMap ℤ) :
    Option MNAsolver :=
  let s1 : MNAsolver := { self with x_ := coeffs (eig.mulVec (eig.inverse A) z) }
  let s2 : MNAsolver := { s1 with node_voltages_ := StdMap.empty }
  let s3 : MNAsolver := { s2 with voltage_source_currents_ := StdMap.empty }
  match fill s3.x_ node_indexes.entries s3.node_voltages_ with
  | none => none
  | some nv =>
    match fill s3.x_ voltage_source_indexes.entries s3.voltage_source_currents_ with
    | none => none
    | some vc => some { s3 with node_voltages_ := nv, voltage_source_currents_ := vc }

/-- Source: `MNAsolver::GetxVector`. -/
def GetxVector (self : MNAsolver) : List CFloat := self.x_

end MNAsolver

end Single

/-! # Theorems -/

/-! ## Inductor admittance -/

/-- C1: for every `ω ≠ 0` and `L ≠ 0`, `Inductor::GetAdmittance(ω)` returns a
number (no division by zero), and that number is `j/(ωL)`: its product with
the impedance `jωL` is `-1`, hence not `1`.  The value is the negative of the
admittance `1/(jωL)`. -/
theorem GetAdmittance_mul_impedance (L w : ℚ) (hw : w ≠ 0) (hL : L ≠ 0) :
    ∃ y, Inductor.GetAdmittance L w = some y ∧ y = ⟨0, 1 / (w * L)⟩ ∧
      y * Inductor.impedance L w = -1 ∧ y * Inductor.impedance L w ≠ 1 := by
  have hd : w * L ≠ 0 := mul_ne_zero hw hL
  have hprod : (⟨0, 1 / (w * L)⟩ : Cplx) * Inductor.impedance L w = -1 := by
    ext
    · simp [Inductor.impedance, Cplx.j, Cplx.ofReal]
      field_simp
      ring
    · simp [Inductor.impedance, Cplx.j, Cplx.ofReal]
  refine ⟨⟨0, 1 / (w * L)⟩, ?_, rfl, hprod, ?_⟩
  · simp [Inductor.GetAdmittance, Inductor.divisor, fdiv, hd]
  · rw [hprod]
    decide

/-- C1 at `L = 1`, `ω = 1`: the returned value `j` times the impedance `j` is
`-1`. -/
theorem GetAdmittance_mul_impedance_at_one :
    ∃ y, Inductor.GetAdmittance 1 1 = some y ∧ y = ⟨0, 1 / (1 * 1)⟩ ∧
      y * Inductor.impedance 1 1 = -1 ∧ y * Inductor.impedance 1 1 ≠ 1 :=
  GetAdmittance_mul_impedance 1 1 (by decide) (by decide)

/-- C6 as stated fails: at `ω = 0` (here with `L = 1`) the divisor `ω·L` of
the division executed by `Inductor::GetAdmittance` is `0`, and the function
has no number to return: in the arithmetic of `float` the divisor is `+0` and
the imaginary part returned is `+inf`. -/
theorem GetAdmittance_at_zero_divides_by_zero :
    Inductor.divisor 1 0 = 0 ∧ Inductor.GetAdmittance 1 0 = none ∧
    Single.Inductor.divisor Binary32.one Binary32.zero = Binary32.zero ∧
    Single.Inductor.GetAdmittance Binary32.one Binary32.zero =
      ⟨Binary32.zero, Binary32.inf false⟩ := by
  have hd : Single.Inductor.divisor Binary32.one Binary32.zero = Binary32.zero := by
    simp [Single.Inductor.divisor, Binary32.mul, Binary32.round, Binary32.one, Binary32.zero]
  refine ⟨?_, ?_, hd, ?_⟩
  · simp [Inductor.divisor]
  · simp [Inductor.GetAdmittance, Inductor.divisor, fdiv]
  · unfold Single.Inductor.GetAdmittance
    rw [hd]
    simp [Binary32.div, Binary32.one, Binary32.zero]

/-! ## `std::map` assignment and lookup -/

theorem insertEntry_of_lt {V : Type} (k : String) (v : V) (l : List (String × V))
    (h : ∀ e ∈ l, keyLt e.1 k) : insertEntry k v l = l ++ [(k, v)] := by
  induction l with
  | nil => rfl
  | cons d l ih =>
    have hd : keyLt d.1 k := h d (List.mem_cons_self _ _)
    have h1 : ¬ keyLt k d.1 := fun hk => keyLt_irrefl k (keyLt_trans hk hd)
    have h2 : k ≠ d.1 := fun hk => keyLt_irrefl k (by simpa [← hk] using hd)
    simp only [insertEntry, h1, h2, if_false, List.cons_append]
    rw [ih fun e he => h e (List.mem_cons_of_mem _ he)]

theorem find_map_entries {V W : Type} (f : V → W) (l : List (String × V)) (k : String) :
    ((l.map fun e => (e.1, f e.2)).find? fun e => e.1 = k).map Prod.snd =
      ((l.find? fun e => e.1 = k).map Prod.snd).map f := by
  induction l with
  | nil => rfl
  | cons d l ih =>
    by_cases h : d.1 = k
    · simp [List.find?, h]
    · simpa [List.find?, h] using ih

/-! ## The solver -/

theorem coeff_coeffs {n : ℕ} (g : Fin n → Cplx) (i : ℤ) (h0 : 0 ≤ i) (hn : i < n) :
    coeff (coeffs g) i = some (coeffD (coeffs g) i) := by
  have hlt : i.toNat < (coeffs g).length := by
    simp only [coeffs, List.length_map, List.length_finRange]
    omega
  simp [coeffD, coeff, h0, List.getElem?_eq_getElem hlt]

theorem fill_eq (x : List Cplx) (rest : List (String × ℤ)) (out : StdMap Cplx)
    (hx : ∀ e ∈ rest, coeff x e.2 = some (coeffD x e.2))
    (hs : SortedEntries rest)
    (hlt : ∀ d ∈ out.entries, ∀ e ∈ rest, keyLt d.1 e.1) :
    ∃ m, MNAsolver.fill x rest out = some m ∧
      m.entries = out.entries ++ rest.map fun e => (e.1, coeffD x e.2) := by
  induction rest generalizing out with
  | nil => exact ⟨out, rfl, by simp⟩
  | cons e rest ih =>
    have he := List.pairwise_cons.mp hs
    have hout : (out.assign e.1 (coeffD x e.2)).entries =
        out.entries ++ [(e.1, coeffD x e.2)] :=
      insertEntry_of_lt _ _ _ fun d hd => hlt d hd e (List.mem_cons_self _ _)
    obtain ⟨m, hm, hme⟩ := ih (out.assign e.1 (coeffD x e.2))
      (fun d hd => hx d (List.mem_cons_of_mem _ hd)) he.2
      (by
        intro d hd c hc
        rw [hout] at hd
        rcases List.mem_append.mp hd with h | h
        · exact hlt d h c (List.mem_cons_of_mem _ hc)
        · rw [List.mem_singleton.mp h]
          exact he.1 c hc)
    refine ⟨m, ?_, ?_⟩
    · simp only [MNAsolver.fill, hx e (List.mem_cons_self _ _)]
      exact hm
    · rw [hme, hout]
      simp

theorem fill_isSome_inRange (x : List Cplx) (rest : List (String × ℤ)) (out : StdMap Cplx)
    (h : (MNAsolver.fill x rest out).isSome) : ∀ e ∈ rest, (coeff x e.2).isSome := by
  induction rest generalizing out with
  | nil => simp
  | cons e rest ih =>
    simp only [MNAsolver.fill] at h
    cases hc : coeff x e.2 with
    | none => simp [hc] at h
    | some v =>
      simp only [hc] at h
      intro d hd
      rcases List.mem_cons.mp hd with hd | hd
      · simp [hd, hc]
      · exact ih _ h d hd

/-- What `solveSteady` does when every index is in range, for any `A`. -/
theorem solveSteady_eq {n : ℕ} (self : MNAsolver) (A : Matrix (Fin n) (Fin n) Cplx)
    (z : Fin n → Cplx) (ni vi : StdMap ℤ) (hni : InRange n ni) (hvi : InRange n vi) :
    ∃ s, MNAsolver.solveSteady self A z ni vi = some s ∧
      s.x_ = coeffs (Matrix.mulVec (inverse A) z) ∧
      s.node_voltages_.entries = ni.entries.map (fun e => (e.1, coeffD s.x_ e.2)) ∧
      s.voltage_source_currents_.entries =
        vi.entries.map (fun e => (e.1, coeffD s.x_ e.2)) := by
  obtain ⟨nv, hnv, hnve⟩ := fill_eq (coeffs (Matrix.mulVec (inverse A) z)) ni.entries
    StdMap.empty (fun e he => coeff_coeffs _ _ (hni e he).1 (hni e he).2) ni.sorted
    (by simp [StdMap.empty])
  obtain ⟨vc, hvc, hvce⟩ := fill_eq (coeffs (Matrix.mulVec (inverse A) z)) vi.entries
    StdMap.empty (fun e he => coeff_coeffs _ _ (hvi e he).1 (hvi e he).2) vi.sorted
    (by simp [StdMap.empty])
  refine ⟨⟨_, nv, vc⟩, ?_, rfl, ?_, ?_⟩
  · rw [MNAsolver.solveSteady]
    dsimp only
    rw [hnv]
    dsimp only
    rw [hvc]
    rfl
  · simpa [StdMap.empty] using hnve
  · simpa [StdMap.empty] using hvce

theorem inverse_eq_inv {n : ℕ} (A : Matrix (Fin n) (Fin n) Cplx) : inverse A = A⁻¹ := by
  rw [Matrix.inv_def, Ring.inverse_eq_inv']
  rfl

theorem mulVec_inverse {n : ℕ} (A : Matrix (Fin n) (Fin n) Cplx) (z : Fin n → Cplx)
    (hA : A.det ≠ 0) : Matrix.mulVec A (Matrix.mulVec (inverse A) z) = z := by
  rw [inverse_eq_inv, Matrix.mulVec_mulVec,
    Matrix.mul_nonsing_inv A (isUnit_iff_ne_zero.mpr hA), Matrix.one_mulVec]

theorem find_mem {V : Type} (m : StdMap V) (k : String) (v : V) (h : m.find k = some v) :
    (k, v) ∈ m.entries := by
  unfold StdMap.find at h
  cases hf : m.entries.find? (fun e => e.1 = k) with
  | none => simp [hf] at h
  | some e =>
    simp only [hf, Option.map_some', Option.some.injEq] at h
    have hk : e.1 = k := by simpa using List.find?_some hf
    have he : e = (k, v) := Prod.ext hk h
    exact he ▸ List.mem_of_find?_eq_some hf

theorem find_filled (x : List Cplx) (idx : StdMap ℤ) (m : StdMap Cplx)
    (hx : ∀ e ∈ idx.entries, coeff x e.2 = some (coeffD x e.2))
    (hm : m.entries = idx.entries.map fun e => (e.1, coeffD x e.2)) (name : String) :
    m.find name = (idx.find name).bind (coeff x) := by
  have h1 : m.find name = (idx.find name).map (coeffD x) := by
    unfold StdMap.find
    rw [hm]
    exact find_map_entries (coeffD x) idx.entries name
  rw [h1]
  cases hf : idx.find name with
  | none => rfl
  | some i => simpa using (hx (name, i) (find_mem idx name i hf)).symm

theorem keys_filled (x : List Cplx) (idx : StdMap ℤ) (m : StdMap Cplx)
    (hm : m.entries = idx.entries.map fun e => (e.1, coeffD x e.2)) : m.keys = idx.keys := by
  simp [StdMap.keys, hm, Function.comp_def]

theorem coeff_isSome_inRange {n : ℕ} (g : Fin n → Cplx) (i : ℤ)
    (h : (coeff (coeffs g) i).isSome) : 0 ≤ i ∧ i < n := by
  unfold coeff at h
  by_cases h0 : 0 ≤ i
  · refine ⟨h0, ?_⟩
    simp only [h0, if_true] at h
    have hlt : i.toNat < (coeffs g).length := by
      by_contra hc
      rw [List.getElem?_eq_none (Nat.le_of_not_lt hc)] at h
      simp at h
    simp only [coeffs, List.length_map, List.length_finRange] at hlt
    omega
  · simp [h0] at h

theorem solveSteady_isSome_iff {n : ℕ} (self : MNAsolver) (A : Matrix (Fin n) (Fin n) Cplx)
    (z : Fin n → Cplx) (ni vi : StdMap ℤ) :
    (MNAsolver.solveSteady self A z ni vi).isSome ↔ InRange n ni ∧ InRange n vi := by
  constructor
  · intro h
    rw [MNAsolver.solveSteady] at h
    dsimp only at h
    cases h1 : MNAsolver.fill (coeffs (Matrix.mulVec (inverse A) z)) ni.entries StdMap.empty with
    | none => simp [h1] at h
    | some nv =>
      cases h2 : MNAsolver.fill (coeffs (Matrix.mulVec (inverse A) z)) vi.entries
          StdMap.empty with
      | none => simp [h1, h2] at h
      | some vc =>
        refine ⟨fun e he => ?_, fun e he => ?_⟩
        · exact coeff_isSome_inRange _ _
            (fill_isSome_inRange _ ni.entries StdMap.empty (by rw [h1]; rfl) e he)
        · exact coeff_isSome_inRange _ _
            (fill_isSome_inRange _ vi.entries StdMap.empty (by rw [h2]; rfl) e he)
  · rintro ⟨h1, h2⟩
    obtain ⟨s, hs, -⟩ := solveSteady_eq self A z ni vi h1 h2
    simp [hs]

theorem inRange_nodeIndexes1 : InRange 2 nodeIndexes1 := by decide

theorem inRange_sourceIndexes1 : InRange 2 sourceIndexes1 := by decide

theorem inRange_nodeIndexes1_one : InRange 1 nodeIndexes1 := by decide

theorem inRange_sourceIndexes0 : InRange 1 sourceIndexes0 := by decide

/-- In exact arithmetic: for every invertible square complex matrix `A`, every
vector `z` of the same size and index maps with all indices in range,
`solveSteady` returns, and the vector it stores (the one `GetxVector` returns)
is `x = A⁻¹·z`, with `A·x = z`.  What holds of the `std::complex<float>` the
program stores is stated in the section on single precision. -/
theorem solveSteady_stores_solution {n : ℕ} (self : MNAsolver)
    (A : Matrix (Fin n) (Fin n) Cplx) (z : Fin n → Cplx) (ni vi : StdMap ℤ)
    (hA : A.det ≠ 0) (hni : InRange n ni) (hvi : InRange n vi) :
    ∃ s x, MNAsolver.solveSteady self A z ni vi = some s ∧
      s.GetxVector = coeffs x ∧ x = Matrix.mulVec A⁻¹ z ∧ Matrix.mulVec A x = z := by
  obtain ⟨s, hs, hx, -⟩ := solveSteady_eq self A z ni vi hni hvi
  refine ⟨s, Matrix.mulVec (inverse A) z, hs, hx, by rw [inverse_eq_inv], ?_⟩
  exact mulVec_inverse A z hA

/-- The exact solution at the 2×2 identity matrix, `z = (3, j)` and the index
maps `{N001 ↦ 0}`, `{V1 ↦ 1}`. -/
theorem solveSteady_stores_solution_identity :
    ∃ s x, MNAsolver.solveSteady usedSolver (1 : Matrix (Fin 2) (Fin 2) Cplx)
        ![⟨3, 0⟩, ⟨0, 1⟩] nodeIndexes1 sourceIndexes1 = some s ∧
      s.GetxVector = coeffs x ∧
      x = Matrix.mulVec (1 : Matrix (Fin 2) (Fin 2) Cplx)⁻¹ ![⟨3, 0⟩, ⟨0, 1⟩] ∧
      Matrix.mulVec (1 : Matrix (Fin 2) (Fin 2) Cplx) x = ![⟨3, 0⟩, ⟨0, 1⟩] :=
  solveSteady_stores_solution usedSolver 1 ![⟨3, 0⟩, ⟨0, 1⟩] nodeIndexes1 sourceIndexes1
    (by simp) inRange_nodeIndexes1 inRange_sourceIndexes1

/-- C3: whatever the solver's previous state, after `solveSteady` with all
supplied indices in range, the node-voltage map has exactly the keys of
`node_indexes`, each name mapped to `x[index]`, and the source-current map has
exactly the keys of `voltage_source_indexes`, each name mapped to `x[index]`
(a name outside an index map has no entry). -/
theorem solveSteady_fills_maps {n : ℕ} (self : MNAsolver)
    (A : Matrix (Fin n) (Fin n) Cplx) (z : Fin n → Cplx) (ni vi : StdMap ℤ)
    (hni : InRange n ni) (hvi : InRange n vi) :
    ∃ s, MNAsolver.solveSteady self A z ni vi = some s ∧
      s.GetNodeVoltages.keys = ni.keys ∧
      (∀ name, s.GetNodeVoltages.find name = (ni.find name).bind (coeff s.GetxVector)) ∧
      (∀ name i, ni.find name = some i →
        ∃ v, coeff s.GetxVector i = some v ∧ s.GetNodeVoltages.find name = some v) ∧
      s.GetVoltageSourceCurrents.keys = vi.keys ∧
      (∀ name, s.GetVoltageSourceCurrents.find name =
        (vi.find name).bind (coeff s.GetxVector)) ∧
      (∀ name i, vi.find name = some i →
        ∃ v, coeff s.GetxVector i = some v ∧
          s.GetVoltageSourceCurrents.find name = some v) := by
  obtain ⟨s, hs, hx, hnv, hvc⟩ := solveSteady_eq self A z ni vi hni hvi
  have hcn : ∀ e ∈ ni.entries, coeff s.x_ e.2 = some (coeffD s.x_ e.2) := by
    intro e he
    rw [hx]
    exact coeff_coeffs _ _ (hni e he).1 (hni e he).2
  have hcv : ∀ e ∈ vi.entries, coeff s.x_ e.2 = some (coeffD s.x_ e.2) := by
    intro e he
    rw [hx]
    exact coeff_coeffs _ _ (hvi e he).1 (hvi e he).2
  refine ⟨s, hs, keys_filled s.x_ ni _ hnv, find_filled s.x_ ni _ hcn hnv, ?_,
    keys_filled s.x_ vi _ hvc, find_filled s.x_ vi _ hcv hvc, ?_⟩
  · intro name i hi
    refine ⟨coeffD s.x_ i, hcn (name, i) (find_mem ni name i hi), ?_⟩
    have h := find_filled s.x_ ni _ hcn hnv name
    rw [hi] at h
    simpa [hcn (name, i) (find_mem ni name i hi)] using h
  · intro name i hi
    refine ⟨coeffD s.x_ i, hcv (name, i) (find_mem vi name i hi), ?_⟩
    have h := find_filled s.x_ vi _ hcv hvc name
    rw [hi] at h
    simpa [hcv (name, i) (find_mem vi name i hi)] using h

/-- C3 on a solver that still holds the entries `OLD` and `VOLD` of an earlier
call. -/
theorem solveSteady_fills_maps_used :
    ∃ s, MNAsolver.solveSteady usedSolver (1 : Matrix (Fin 2) (Fin 2) Cplx)
        ![⟨3, 0⟩, ⟨0, 1⟩] nodeIndexes1 sourceIndexes1 = some s ∧
      s.GetNodeVoltages.keys = nodeIndexes1.keys ∧
      (∀ name, s.GetNodeVoltages.find name =
        (nodeIndexes1.find name).bind (coeff s.GetxVector)) ∧
      (∀ name i, nodeIndexes1.find name = some i →
        ∃ v, coeff s.GetxVector i = some v ∧ s.GetNodeVoltages.find name = some v) ∧
      s.GetVoltageSourceCurrents.keys = sourceIndexes1.keys ∧
      (∀ name, s.GetVoltageSourceCurrents.find name =
        (sourceIndexes1.find name).bind (coeff s.GetxVector)) ∧
      (∀ name i, sourceIndexes1.find name = some i →
        ∃ v, coeff s.GetxVector i = some v ∧
          s.GetVoltageSourceCurrents.find name = some v) :=
  solveSteady_fills_maps usedSolver 1 ![⟨3, 0⟩, ⟨0, 1⟩] nodeIndexes1 sourceIndexes1
    inRange_nodeIndexes1 inRange_sourceIndexes1

/-- C4 as stated fails: the 1×1 zero matrix is singular, and `solveSteady`
reports no failure on it: it returns a state whose maps are populated with the
keys `N001` and `V1`. -/
theorem solveSteady_singular_not_reported :
    Matrix.det (0 : Matrix (Fin 1) (Fin 1) Cplx) = 0 ∧
    ∃ s, MNAsolver.solveSteady freshSolver (0 : Matrix (Fin 1) (Fin 1) Cplx)
        ![⟨1, 0⟩] nodeIndexes1 sourceIndexes0 = some s ∧
      s.GetNodeVoltages.keys = ["N001"] ∧ s.GetVoltageSourceCurrents.keys = ["V1"] := by
  refine ⟨by simp, ?_⟩
  obtain ⟨s, hs, -, hnv, hvc⟩ := solveSteady_eq freshSolver
    (0 : Matrix (Fin 1) (Fin 1) Cplx) ![⟨1, 0⟩] nodeIndexes1 sourceIndexes0
    inRange_nodeIndexes1_one inRange_sourceIndexes0
  refine ⟨s, hs, ?_, ?_⟩
  · rw [MNAsolver.GetNodeVoltages, keys_filled s.x_ nodeIndexes1 _ hnv]
    decide
  · rw [MNAsolver.GetVoltageSourceCurrents, keys_filled s.x_ sourceIndexes0 _ hvc]
    decide

/-- C4, amended: `solveSteady` makes no singularity check.  For every `A`,
singular or not, it returns normally exactly when the supplied indices are in
range, and then (in particular for every singular `A`) it has stored a vector
and populated both maps with exactly the keys of the index maps; a singular
system is reported by nothing in `solveSteady`. -/
theorem solveSteady_no_singularity_check {n : ℕ} (self : MNAsolver)
    (A : Matrix (Fin n) (Fin n) Cplx) (z : Fin n → Cplx) (ni vi : StdMap ℤ) :
    ((MNAsolver.solveSteady self A z ni vi).isSome ↔ InRange n ni ∧ InRange n vi) ∧
    (A.det = 0 → InRange n ni → InRange n vi →
      ∃ s, MNAsolver.solveSteady self A z ni vi = some s ∧
        s.GetxVector.length = n ∧
        s.GetNodeVoltages.keys = ni.keys ∧ s.GetVoltageSourceCurrents.keys = vi.keys) := by
  refine ⟨solveSteady_isSome_iff self A z ni vi, ?_⟩
  intro _ hni hvi
  obtain ⟨s, hs, hx, hnv, hvc⟩ := solveSteady_eq self A z ni vi hni hvi
  refine ⟨s, hs, ?_, keys_filled s.x_ ni _ hnv, keys_filled s.x_ vi _ hvc⟩
  simp [MNAsolver.GetxVector, hx, coeffs]

/-! ## The simulate actions -/

theorem analyse_no_ground {C : Type} (ops : CircuitOps C) (c : C) (calls : List Call)
    (h : ops.HasGround (ops.RemoveUnnecessaryNodes c) = false) :
    analyse ops c calls = (ops.RemoveUnnecessaryNodes c,
      calls ++ [Call.RemoveUnnecessaryNodes, Call.HasGround false,
        Call.print "Add ground before simulating!"]) := by
  simp [analyse, h]

theorem analyse_not_solveable {C : Type} (ops : CircuitOps C) (c : C) (calls : List Call)
    (h1 : ops.HasGround (ops.RemoveUnnecessaryNodes c) = true)
    (h2 : ops.Solveable (ops.ConstructMatrices (ops.RemoveUnnecessaryNodes c)) = false) :
    analyse ops c calls = (ops.ConstructMatrices (ops.RemoveUnnecessaryNodes c),
      calls ++ [Call.RemoveUnnecessaryNodes, Call.HasGround true, Call.ConstructMatrices,
        Call.Solveable false, Call.print "Failed to solve circuit."]) := by
  simp [analyse, h1, h2]

theorem analyse_solved {C : Type} (ops : CircuitOps C) (c : C) (calls : List Call)
    (h1 : ops.HasGround (ops.RemoveUnnecessaryNodes c) = true)
    (h2 : ops.Solveable (ops.ConstructMatrices (ops.RemoveUnnecessaryNodes c)) = true) :
    analyse ops c calls = (ops.ConstructMatrices (ops.RemoveUnnecessaryNodes c),
      calls ++ [Call.RemoveUnnecessaryNodes, Call.HasGround true, Call.ConstructMatrices,
        Call.Solveable true, Call.solveSteady, Call.setCurrents, Call.resultListed]) := by
  simp [analyse, h1, h2]

theorem analyse_guarded {C : Type} (ops : CircuitOps C) (c : C) (w : ℚ) :
    guarded (analyse ops c [Call.SetOmega w]).2 = true := by
  cases h1 : ops.HasGround (ops.RemoveUnnecessaryNodes c)
  · simp [analyse_no_ground ops c _ h1, guarded, onlyAfter]
  · cases h2 : ops.Solveable (ops.ConstructMatrices (ops.RemoveUnnecessaryNodes c))
    · simp [analyse_not_solveable ops c _ h1 h2, guarded, onlyAfter]
    · simp [analyse_solved ops c _ h1 h2, guarded, onlyAfter]

theorem analyse_solve_iff {C : Type} (ops : CircuitOps C) (c : C) (w : ℚ) :
    (Call.solveSteady ∈ (analyse ops c [Call.SetOmega w]).2 ↔
      ops.HasGround (ops.RemoveUnnecessaryNodes c) = true ∧
      ops.Solveable (ops.ConstructMatrices (ops.RemoveUnnecessaryNodes c)) = true) ∧
    (Call.setCurrents ∈ (analyse ops c [Call.SetOmega w]).2 ↔
      ops.HasGround (ops.RemoveUnnecessaryNodes c) = true ∧
      ops.Solveable (ops.ConstructMatrices (ops.RemoveUnnecessaryNodes c)) = true) ∧
    (Call.ConstructMatrices ∈ (analyse ops c [Call.SetOmega w]).2 ↔
      ops.HasGround (ops.RemoveUnnecessaryNodes c) = true) := by
  cases h1 : ops.HasGround (ops.RemoveUnnecessaryNodes c)
  · simp [analyse_no_ground ops c _ h1]
  · cases h2 : ops.Solveable (ops.ConstructMatrices (ops.RemoveUnnecessaryNodes c))
    · simp [analyse_not_solveable ops c _ h1 h2]
    · simp [analyse_solved ops c _ h1 h2]

theorem analyse_onlyMessage {C : Type} (ops : CircuitOps C) (c : C) (w : ℚ) :
    (ops.HasGround (ops.RemoveUnnecessaryNodes c) = false ∨
      ops.Solveable (ops.ConstructMatrices (ops.RemoveUnnecessaryNodes c)) = false) →
    onlyMessage (analyse ops c [Call.SetOmega w]).2 := by
  intro h
  cases h1 : ops.HasGround (ops.RemoveUnnecessaryNodes c)
  · rw [analyse_no_ground ops c _ h1]
    exact ⟨by simp, by simp, by simp,
      [Call.SetOmega w, Call.RemoveUnnecessaryNodes], Call.HasGround false,
      "Add ground before simulating!", by simp, by simp, by simp⟩
  · cases h2 : ops.Solveable (ops.ConstructMatrices (ops.RemoveUnnecessaryNodes c))
    · rw [analyse_not_solveable ops c _ h1 h2]
      exact ⟨by simp, by simp, by simp,
        [Call.SetOmega w, Call.RemoveUnnecessaryNodes, Call.HasGround true,
          Call.ConstructMatrices], Call.Solveable false,
        "Failed to solve circuit.", by simp, by simp, by simp⟩
    · simp [h1, h2] at h

theorem steadyStateAC_eq {C : Type} (ops : CircuitOps C) (c : C) (w : ℚ) :
    steadyStateAC ops c w = analyse ops (ops.SetOmega c (omegaAC w)) [Call.SetOmega (omegaAC w)] := by
  unfold steadyStateAC omegaAC
  split <;> rfl

/-- C5: in both simulate actions (DC, and AC for every entered `w`), for every
implementation of the circuit operations and every circuit:
`ConstructMatrices` is called only after `RemoveUnnecessaryNodes` and only after
`HasGround` returned true, and it is called exactly when `HasGround` returned
true; `solveSteady` and `setCurrents` are called only after `ConstructMatrices`
and a `Solveable` that returned true, and exactly when both checks returned
true; when either check fails no solver call is made and the failed check is
followed by one printed message only. -/
theorem simulate_actions_guarded {C : Type} (ops : CircuitOps C) (circuit_ : C) (w : ℚ) :
    (guarded (steadyStateDC ops circuit_).2 = true ∧
      guarded (steadyStateAC ops circuit_ w).2 = true) ∧
    ((Call.ConstructMatrices ∈ (steadyStateDC ops circuit_).2 ↔
        ops.HasGround (ops.RemoveUnnecessaryNodes (ops.SetOmega circuit_ 0)) = true) ∧
      (Call.solveSteady ∈ (steadyStateDC ops circuit_).2 ↔
        ops.HasGround (ops.RemoveUnnecessaryNodes (ops.SetOmega circuit_ 0)) = true ∧
        ops.Solveable (ops.ConstructMatrices
          (ops.RemoveUnnecessaryNodes (ops.SetOmega circuit_ 0))) = true) ∧
      (Call.setCurrents ∈ (steadyStateDC ops circuit_).2 ↔
        ops.HasGround (ops.RemoveUnnecessaryNodes (ops.SetOmega circuit_ 0)) = true ∧
        ops.Solveable (ops.ConstructMatrices
          (ops.RemoveUnnecessaryNodes (ops.SetOmega circuit_ 0))) = true)) ∧
    ((Call.ConstructMatrices ∈ (steadyStateAC ops circuit_ w).2 ↔
        ops.HasGround (ops.RemoveUnnecessaryNodes (ops.SetOmega circuit_ (omegaAC w))) = true) ∧
      (Call.solveSteady ∈ (steadyStateAC ops circuit_ w).2 ↔
        ops.HasGround (ops.RemoveUnnecessaryNodes (ops.SetOmega circuit_ (omegaAC w))) = true ∧
        ops.Solveable (ops.ConstructMatrices
          (ops.RemoveUnnecessaryNodes (ops.SetOmega circuit_ (omegaAC w)))) = true) ∧
      (Call.setCurrents ∈ (steadyStateAC ops circuit_ w).2 ↔
        ops.HasGround (ops.RemoveUnnecessaryNodes (ops.SetOmega circuit_ (omegaAC w))) = true ∧
        ops.Solveable (ops.ConstructMatrices
          (ops.RemoveUnnecessaryNodes (ops.SetOmega circuit_ (omegaAC w)))) = true)) ∧
    ((ops.HasGround (ops.RemoveUnnecessaryNodes (ops.SetOmega circuit_ 0)) = false ∨
        ops.Solveable (ops.ConstructMatrices
          (ops.RemoveUnnecessaryNodes (ops.SetOmega circuit_ 0))) = false) →
      onlyMessage (steadyStateDC ops circuit_).2) ∧
    ((ops.HasGround (ops.RemoveUnnecessaryNodes (ops.SetOmega circuit_ (omegaAC w))) = false ∨
        ops.Solveable (ops.ConstructMatrices
          (ops.RemoveUnnecessaryNodes (ops.SetOmega circuit_ (omegaAC w)))) = false) →
      onlyMessage (steadyStateAC ops circuit_ w).2) := by
  rw [steadyStateAC_eq]
  unfold steadyStateDC
  have hdc := analyse_solve_iff ops (ops.SetOmega circuit_ 0) 0
  have hac := analyse_solve_iff ops (ops.SetOmega circuit_ (omegaAC w)) (omegaAC w)
  exact ⟨⟨analyse_guarded _ _ _, analyse_guarded _ _ _⟩,
    ⟨hdc.2.2, hdc.1, hdc.2.1⟩, ⟨hac.2.2, hac.1, hac.2.1⟩,
    analyse_onlyMessage _ _ _, analyse_onlyMessage _ _ _⟩

/-! ## Ground markers -/

/-- C9 (code defect): two markers are bound to the node `N001` and the first
one is then destroyed.  The destructor sets the node back to `NORMAL` although
the second marker is alive and still binds it: the claimed invariant fails. -/
theorem ground_lost_with_live_marker :
    runGroundOps ⟨[⟨"N001", NodeType.NORMAL⟩], []⟩
        [GroundOp.create, GroundOp.create, GroundOp.SetNode 0 "N001",
          GroundOp.SetNode 1 "N001", GroundOp.destroy 0] =
      ⟨[⟨"N001", NodeType.NORMAL⟩], [⟨some "N001", 0, 0⟩]⟩ ∧
    boundNodesGrounded (runGroundOps ⟨[⟨"N001", NodeType.NORMAL⟩], []⟩
        [GroundOp.create, GroundOp.create, GroundOp.SetNode 0 "N001",
          GroundOp.SetNode 1 "N001", GroundOp.destroy 0]) = false ∧
    boundNodesGrounded (runGroundOps ⟨[⟨"N001", NodeType.NORMAL⟩], []⟩
        [GroundOp.create, GroundOp.create, GroundOp.SetNode 0 "N001",
          GroundOp.SetNode 1 "N001"]) = true := by
  decide

/-! ## `SaveCircuit` -/

theorem toList_append (s t : String) : (s ++ t).toList = s.toList ++ t.toList :=
  String.data_append s t

theorem space_not_mem (s : String) (h : NoSpace s) : ' ' ∉ s.toList := by
  intro hc
  have := h ' ' hc
  simp [isspace] at this

theorem newline_not_mem (s : String) (h : NoSpace s) : '\n' ∉ s.toList := by
  intro hc
  have := h '\n' hc
  simp [isspace] at this

theorem noSpace_nodeText (node : Option String) (h : ∀ n, node = some n → NoSpace n) :
    NoSpace (nodeText node) := by
  cases node with
  | none => simp only [nodeText]; decide
  | some n => exact h n rfl

theorem kindPrefix_of_letter (type : ComponentType) (kind : String)
    (h : kindLetter type = some kind) : kindPrefix type = kind ++ " " ∧ NoSpace kind := by
  cases type <;> simp [kindLetter] at h <;> subst h <;> exact ⟨rfl, by decide⟩

theorem componentLine_toList (ft : FloatText) (comp : GUIComponent) (kind : String)
    (h : kindLetter comp.GetType = some kind) :
    (componentLine ft comp).toList =
      [' '].intercalate ((componentFields ft kind comp).map String.toList) := by
  simp [componentLine, (kindPrefix_of_letter _ _ h).1, componentFields, toList_append,
    List.intercalate]

theorem SaveCircuit_lines (ft : FloatText) (e : CircuitSimulatorGUI) :
    (e.SaveCircuit ft).1 = e.components_.map (componentLine ft) ++
      ((e.wires_.map (wireLines ft)).flatten ++ (groundLines ft e.grounds_).1) := by
  simp [CircuitSimulatorGUI.SaveCircuit]

/-- C7 (code defect): a resistor and a capacitor are placed and left unwired,
the editor is saved and the file loaded.  `SaveCircuit` writes `-` for each
unbound terminal; `LoadCircuit` reads `-` as a node name, so after loading all
four terminals are bound to a node called `-` that did not exist before, and
the two components are connected there. -/
theorem save_load_binds_unbound_terminals :
    ∃ e0 e1 file,
      session wholeText CircuitSimulatorGUI.initial
        [Event.key .R, Event.click, Event.key .C, Event.click] = .ok e0 ∧
      e0.SaveCircuit wholeText = (file, true) ∧
      file = ["R R0 - - 0 0 0 0", "C C0 - - 0 0 0 0"] ∧
      e0.LoadCircuit wholeText (fileLines file) = .ok e1 ∧
      e0.components_.map (fun c => (c.GetName, c.GetTerminalNode .INPUT,
        c.GetTerminalNode .OUTPUT)) = [("R0", none, none), ("C0", none, none)] ∧
      e1.components_.map (fun c => (c.GetName, c.GetTerminalNode .INPUT,
        c.GetTerminalNode .OUTPUT)) =
          [("R0", some "-", some "-"), ("C0", some "-", some "-")] ∧
      e0.circuit_.nodes_ = [] ∧
      e1.circuit_.nodes_ = [⟨"-", NodeType.NORMAL⟩] :=
  ⟨_, _, _, rfl, rfl, rfl, rfl, rfl, rfl, rfl, rfl⟩

/-- C8 (code defect): a file with the one resistor `R1` is loaded, which
leaves the counter of resistors at `1`; the next resistor added with Ctrl+R
and a click is named `R1` too, and the circuit has two components of that
name. -/
theorem generated_name_repeats_loaded_name :
    ∃ e,
      session wholeText CircuitSimulatorGUI.initial
        [Event.openFile (fileLines ["R R1 N001 N002 50 0 0 0"]), Event.key .R,
          Event.click] = .ok e ∧
      e.resistors_ = 2 ∧
      e.circuit_.components_.map (fun c => c.name) = ["R1", "R1"] ∧
      e.components_.map (fun c => c.GetName) = ["R1", "R1"] :=
  ⟨_, rfl, rfl, rfl, rfl⟩


/-! ## The loop of `LoadCircuit` has passes enough -/

theorem loadWire_rest (ft : FloatText) (iss : IStream) (rest rest1 : List String)
    (st st1 : LoadState) (h : loadWire ft iss rest st = .ok (st1, rest1)) :
    rest1.length ≤ rest.length := by
  unfold loadWire at h
  dsimp only at h
  split at h
  · cases h
  · split at h
    · cases h
    · split at h
      · cases h
      · simp only [getlines, Except.ok.injEq, Prod.mk.injEq] at h
        rw [← h.2]
        simp only [List.length_drop]
        omega

theorem loadRecord_rest (ft : FloatText) (line : String) (rest rest1 : List String)
    (st st1 : LoadState) (h : loadRecord ft line rest st = .ok (st1, rest1)) :
    rest1.length ≤ rest.length := by
  unfold loadRecord at h
  dsimp only at h
  split at h
  · cases h
    exact le_refl _
  · split at h
    · cases h
    · split at h
      · split at h
        · cases h
        · cases h
          exact le_refl _
      · split at h
        · exact loadWire_rest ft _ rest rest1 st st1 h
        · split at h <;> cases h <;> exact le_refl _

theorem loadLoop_succ (ft : FloatText) (fuel : ℕ) :
    ∀ (lines : List String) (st : LoadState), lines.length ≤ fuel →
      loadLoop ft (fuel + 1) lines st = loadLoop ft fuel lines st := by
  induction fuel with
  | zero =>
    intro lines st h
    have : lines = [] := List.length_eq_zero.mp (Nat.le_zero.mp h)
    subst this
    rfl
  | succ f ih =>
    intro lines st h
    cases lines with
    | nil => rfl
    | cons line rest =>
      simp only [loadLoop]
      cases hr : loadRecord ft line rest st with
      | error msg => rfl
      | ok p =>
        obtain ⟨st1, rest1⟩ := p
        have hlen := loadRecord_rest ft line rest rest1 st st1 hr
        simp only [List.length_cons] at h
        exact ih rest1 st1 (by omega)

/-- More passes than the file has lines change nothing: the bound on the
passes of the loop of `LoadCircuit` is never what ends it. -/
theorem loadLoop_fuel (ft : FloatText) (lines : List String) (st : LoadState) (extra : ℕ) :
    loadLoop ft (lines.length + extra) lines st = loadLoop ft lines.length lines st := by
  induction extra with
  | zero => rfl
  | succ k ih =>
    rw [← ih, ← Nat.add_assoc]
    exact loadLoop_succ ft (lines.length + k) lines st (by omega)


/-! ## A single DC voltage source -/

theorem sourceStampA_mul_self : sourceStampA * sourceStampA = 1 := by
  apply Matrix.ext
  intro i j
  fin_cases i <;> fin_cases j <;> simp [sourceStampA, Matrix.mul_apply, Fin.sum_univ_two]

theorem inverse_sourceStampA : inverse sourceStampA = sourceStampA := by
  rw [inverse_eq_inv]
  exact Matrix.inv_eq_left_inv sourceStampA_mul_self

theorem coeffs_sourceStamp (V : Cplx) :
    coeffs (Matrix.mulVec (inverse sourceStampA) ![0, V]) = [V, 0] := by
  rw [inverse_sourceStampA]
  simp [coeffs, List.finRange, sourceStampA, Matrix.mulVec, Matrix.dotProduct, Fin.sum_univ_two]

theorem find_assign_empty {V : Type} (k : String) (v : V) :
    (StdMap.empty.assign k v).find k = some v := by
  simp [StdMap.find, StdMap.assign, StdMap.empty, insertEntry]

theorem inRange_assign_empty (n : ℕ) (k : String) (i : ℤ) (h0 : 0 ≤ i) (hn : i < n) :
    InRange n (StdMap.empty.assign k i) := by
  intro e he
  simp only [StdMap.assign, StdMap.empty, insertEntry, List.mem_singleton] at he
  subst he
  exact ⟨h0, hn⟩

/-- C12: for every source value `V` (and whatever the solver held before), on
the system of a single voltage source between the node `n` and ground,
`A = [[0, 1], [1, 0]]`, `z = [0, V]`, `node_indexes = {n ↦ 0}`,
`voltage_source_indexes = {V1 ↦ 1}`, `solveSteady` returns with `x = [V, 0]`:
the reported voltage of `n` is `V` and the reported current of `V1` is `0`. -/
theorem single_voltage_source (self : MNAsolver) (n V1 : String) (V : Cplx) :
    ∃ s, MNAsolver.solveSteady self sourceStampA ![0, V]
        (StdMap.empty.assign n 0) (StdMap.empty.assign V1 1) = some s ∧
      s.GetxVector = [V, 0] ∧
      s.GetNodeVoltages.find n = some V ∧
      s.GetVoltageSourceCurrents.find V1 = some 0 ∧
      s.GetNodeVoltages.keys = [n] ∧ s.GetVoltageSourceCurrents.keys = [V1] := by
  have hni : InRange 2 (StdMap.empty.assign n 0) :=
    inRange_assign_empty 2 n 0 (le_refl _) (by norm_num)
  have hvi : InRange 2 (StdMap.empty.assign V1 1) :=
    inRange_assign_empty 2 V1 1 (by norm_num) (by norm_num)
  obtain ⟨s, hs, hx, hnv, hvc⟩ := solveSteady_eq self sourceStampA ![0, V] _ _ hni hvi
  rw [coeffs_sourceStamp] at hx
  have hcn : ∀ e ∈ (StdMap.empty.assign n (0 : ℤ)).entries,
      coeff s.x_ e.2 = some (coeffD s.x_ e.2) := by
    intro e he
    simp only [StdMap.assign, StdMap.empty, insertEntry, List.mem_singleton] at he
    subst he
    simp [hx, coeff, coeffD]
  have hcv : ∀ e ∈ (StdMap.empty.assign V1 (1 : ℤ)).entries,
      coeff s.x_ e.2 = some (coeffD s.x_ e.2) := by
    intro e he
    simp only [StdMap.assign, StdMap.empty, insertEntry, List.mem_singleton] at he
    subst he
    simp [hx, coeff, coeffD]
  refine ⟨s, hs, hx, ?_, ?_, ?_, ?_⟩
  · rw [MNAsolver.GetNodeVoltages, find_filled s.x_ _ _ hcn hnv n, find_assign_empty]
    simp [hx, coeff]
  · rw [MNAsolver.GetVoltageSourceCurrents, find_filled s.x_ _ _ hcv hvc V1, find_assign_empty]
    simp [hx, coeff]
  · rw [MNAsolver.GetNodeVoltages, keys_filled s.x_ _ _ hnv]
    simp [StdMap.keys, StdMap.assign, StdMap.empty, insertEntry]
  · rw [MNAsolver.GetVoltageSourceCurrents, keys_filled s.x_ _ _ hvc]
    simp [StdMap.keys, StdMap.assign, StdMap.empty, insertEntry]

/-! ## The angular frequency of the simulate actions -/

theorem setOmega_mem_analyse {C : Type} (ops : CircuitOps C) (c : C) (w ω : ℚ) :
    Call.SetOmega ω ∈ (analyse ops c [Call.SetOmega w]).2 ↔ ω = w := by
  cases h1 : ops.HasGround (ops.RemoveUnnecessaryNodes c)
  · simp [analyse_no_ground ops c _ h1]
  · cases h2 : ops.Solveable (ops.ConstructMatrices (ops.RemoveUnnecessaryNodes c))
    · simp [analyse_not_solveable ops c _ h1 h2]
    · simp [analyse_solved ops c _ h1 h2]

/-- C19: the DC action calls `SetOmega` with `0` and with nothing else; the AC
action calls it with `w` when the entered `w > 0` and with `0` when `w ≤ 0`, and
with nothing else; so the angular frequency given to the circuit is never
negative. -/
theorem simulate_omega_nonneg {C : Type} (ops : CircuitOps C) (circuit_ : C) (w : ℚ) :
    (∀ ω, Call.SetOmega ω ∈ (steadyStateDC ops circuit_).2 ↔ ω = 0) ∧
    (∀ ω, Call.SetOmega ω ∈ (steadyStateAC ops circuit_ w).2 ↔ ω = omegaAC w) ∧
    (0 < w → omegaAC w = w) ∧ (w ≤ 0 → omegaAC w = 0) ∧ 0 ≤ omegaAC w ∧
    (∀ ω, Call.SetOmega ω ∈ (steadyStateDC ops circuit_).2 ∨
      Call.SetOmega ω ∈ (steadyStateAC ops circuit_ w).2 → 0 ≤ ω) := by
  have hdc : ∀ ω, Call.SetOmega ω ∈ (steadyStateDC ops circuit_).2 ↔ ω = 0 := by
    intro ω
    unfold steadyStateDC
    exact setOmega_mem_analyse ops _ 0 ω
  have hac : ∀ ω, Call.SetOmega ω ∈ (steadyStateAC ops circuit_ w).2 ↔ ω = omegaAC w := by
    intro ω
    rw [steadyStateAC_eq]
    exact setOmega_mem_analyse ops _ _ ω
  have hnn : 0 ≤ omegaAC w := by
    unfold omegaAC
    split
    · exact le_of_lt ‹_›
    · exact le_refl _
  refine ⟨hdc, hac, ?_, ?_, hnn, ?_⟩
  · intro h
    simp [omegaAC, h]
  · intro h
    simp [omegaAC, not_lt.mpr h]
  · rintro ω (h | h)
    · rw [(hdc ω).mp h]
    · rw [(hac ω).mp h]
      exact hnn

/-! ## Records of `LoadCircuit` by their first field -/

theorem words_of_length_zero (line : String) (h : line.length = 0) : words line = [] := by
  have hl : line = "" := String.ext (List.length_eq_zero.mp h)
  subst hl
  rfl

theorem loadRecord_eq (ft : FloatText) (line : String) (rest : List String) (st : LoadState)
    (type : String) (fields : List String) (hw : words line = type :: fields) :
    loadRecord ft line rest st =
      if type ∈ componentKinds then
        match loadComponent ft type ⟨fields, true⟩ st with
        | .error msg => .error msg
        | .ok st => .ok (st, rest)
      else if type = "W" then loadWire ft ⟨fields, true⟩ rest st
      else if type = "G" then .ok (loadGround ft ⟨fields, true⟩ st, rest)
      else .ok (st, rest) := by
  have hlen : line.length ≠ 0 := by
    intro h
    rw [words_of_length_zero line h] at hw
    cases hw
  simp [loadRecord, hlen, IStream.ofLine, IStream.getString, hw]

theorem AddNode_components (c : Circuit) (name : String) :
    (c.AddNode name).components_ = c.components_ := by
  unfold Circuit.AddNode
  split <;> rfl

theorem loadComponent_ok (ft : FloatText) (type : String) (iss : IStream) (st : LoadState)
    (h : type ∈ componentKinds) :
    ∃ st1 comp, loadComponent ft type iss st = .ok st1 ∧
      st1.gui.components_ = st.gui.components_ ++ [comp] ∧
      st1.gui.circuit_.components_ = st.gui.circuit_.components_ ++ [comp.component] ∧
      kindLetter comp.GetType = some type := by
  simp only [componentKinds, List.mem_cons, List.mem_singleton, List.not_mem_nil,
    or_false] at h
  rcases h with h | h | h | h | h <;> subst h <;>
    simp [loadComponent, pushComponent, Circuit.AddComponent, AddNode_components,
      GUIComponent.connected, GUIComponent.GetType, kindLetter]

theorem loadComponent_not_invalid (ft : FloatText) (type : String) (iss : IStream)
    (st : LoadState) (h : type ∈ componentKinds) :
    loadComponent ft type iss st ≠ .error "Invalid component type found in netlist." := by
  obtain ⟨st1, comp, hok, -⟩ := loadComponent_ok ft type iss st h
  rw [hok]
  exact fun hc => nomatch hc

theorem loadRecord_not_invalid (ft : FloatText) (line : String) (rest : List String)
    (st : LoadState) :
    loadRecord ft line rest st ≠ .error "Invalid component type found in netlist." := by
  cases hw : words line with
  | nil =>
    by_cases hlen : line.length = 0
    · simp [loadRecord, hlen]
    · simp [loadRecord, hlen, IStream.ofLine, IStream.getString, hw]
  | cons type fields =>
    rw [loadRecord_eq ft line rest st type fields hw]
    split
    · rename_i hmem
      obtain ⟨st1, comp, hok, -⟩ := loadComponent_ok ft type ⟨fields, true⟩ st hmem
      rw [hok]
      exact fun hc => nomatch hc
    · split
      · unfold loadWire
        dsimp only
        split
        · simp
        · split
          · simp
          · split
            · simp
            · exact fun hc => nomatch hc
      · split <;> exact fun hc => nomatch hc

theorem loadLoop_not_invalid (ft : FloatText) (fuel : ℕ) :
    ∀ (lines : List String) (st : LoadState),
      loadLoop ft fuel lines st ≠ .error "Invalid component type found in netlist." := by
  induction fuel with
  | zero =>
    intro lines st
    cases lines with
    | nil => exact fun hc => nomatch hc
    | cons line rest => simp [loadLoop]
  | succ f ih =>
    intro lines st
    cases lines with
    | nil => exact fun hc => nomatch hc
    | cons line rest =>
      simp only [loadLoop]
      cases hr : loadRecord ft line rest st with
      | error msg =>
        intro hc
        apply loadRecord_not_invalid ft line rest st
        rw [hr]
        simpa using hc
      | ok p => exact ih p.2 p.1

/-- C20: the error "Invalid component type found in netlist." is unreachable.
For every file `LoadCircuit` does not end with it; a record whose first field
is none of R, L, C, V, J, W, G is passed over, with no error, no change of the
editor or its circuit, and no line taken beyond its own; a record whose first
field is R, L, C, V or J takes the constructing branch of that kind: it ends
without error and has appended one component of that kind to the editor and
to the circuit. -/
theorem invalid_type_unreachable (ft : FloatText) :
    (∀ (e : CircuitSimulatorGUI) (lines : List String),
      e.LoadCircuit ft lines ≠ .error "Invalid component type found in netlist.") ∧
    (∀ (line : String) (rest : List String) (st : LoadState) (type : String)
      (fields : List String), words line = type :: fields →
      type ∉ ["R", "L", "C", "V", "J", "W", "G"] →
      loadRecord ft line rest st = .ok (st, rest)) ∧
    (∀ (line : String) (rest : List String) (st : LoadState) (type : String)
      (fields : List String), words line = type :: fields →
      type ∈ ["R", "L", "C", "V", "J"] →
      ∃ st1 comp, loadRecord ft line rest st = .ok (st1, rest) ∧
        st1.gui.components_ = st.gui.components_ ++ [comp] ∧
        st1.gui.circuit_.components_ = st.gui.circuit_.components_ ++ [comp.component] ∧
        kindLetter comp.GetType = some type) := by
  refine ⟨?_, ?_, ?_⟩
  · intro e lines
    unfold CircuitSimulatorGUI.LoadCircuit
    cases h : loadLoop ft lines.length lines ⟨e.Reset, StdMap.empty⟩ with
    | error msg =>
      intro hc
      apply loadLoop_not_invalid ft lines.length lines ⟨e.Reset, StdMap.empty⟩
      rw [h]
      simpa using hc
    | ok st => exact fun hc => nomatch hc
  · intro line rest st type fields hw hn
    rw [loadRecord_eq ft line rest st type fields hw]
    simp only [List.mem_cons, List.mem_singleton, List.not_mem_nil, or_false, not_or] at hn
    simp [componentKinds, hn]
  · intro line rest st type fields hw hm
    rw [loadRecord_eq ft line rest st type fields hw]
    obtain ⟨st1, comp, hok, h1, h2, h3⟩ := loadComponent_ok ft type ⟨fields, true⟩ st hm
    refine ⟨st1, comp, ?_, h1, h2, h3⟩
    have hm1 : type ∈ componentKinds := hm
    rw [if_pos hm1, hok]

/-! ## The grid -/

theorem tmod_one_sub (G : ℤ) (hG : 3 ≤ G) : Int.tmod (1 - G) G = 1 - G := by
  have h1 : (1 - G) = -(G - 1) := by ring
  rw [Int.tmod_def, h1, Int.neg_tdiv, Int.tdiv_eq_zero_of_lt (by omega) (by omega)]
  simp

/-- C13 (code defect): for every grid size `G ≥ 3` the coordinate `1 - G`
(that is `-(G - 1)`, one step above `-G`) is mapped to `0`, at distance
`G - 1`, although the multiple `-G` is at distance `1`: for a negative
coordinate the remainder of `%` is negative and never exceeds `G / 2`, so the
coordinate is always moved toward zero. -/
theorem MapCoordsToClosest_negative (G : ℤ) (hG : 3 ≤ G) :
    MapCoordsToClosest G (1 - G, 0) = (0, 0) ∧
    |(1 - G) - (-1) * G| < |(1 - G) - (MapCoordsToClosest G (1 - G, 0)).1| := by
  have hdiv : 0 ≤ Int.tdiv G 2 := Int.tdiv_nonneg (by omega) (by omega)
  have hx : MapCoordsToClosest G (1 - G, 0) = (0, 0) := by
    simp only [MapCoordsToClosest, tmod_one_sub G hG, Int.zero_tmod]
    have h1 : ¬ (1 - G > Int.tdiv G 2) := by omega
    have h2 : ¬ (0 > Int.tdiv G 2) := by omega
    simp [h1, h2]
  refine ⟨hx, ?_⟩
  rw [hx]
  have e1 : (1 - G) - (-1) * G = 1 := by ring
  have e2 : (1 - G) - ((0 : ℤ), (0 : ℤ)).1 = -(G - 1) := by simp
  rw [e1, e2, abs_neg, abs_of_nonneg (by omega : (0:ℤ) ≤ G - 1)]
  simp only [abs_one]
  omega

/-- C13 at `GRID_SIZE = 10`: the coordinate `-9` is mapped to `0`, not to
`-10`. -/
theorem MapCoordsToClosest_negative_ten :
    MapCoordsToClosest 10 (1 - 10, 0) = (0, 0) ∧
    |(1 - 10) - (-1) * 10| < |(1 - 10) - (MapCoordsToClosest 10 (1 - 10, 0)).1| :=
  MapCoordsToClosest_negative 10 (by decide)

/-! ## Terminals -/

/-- C16 as stated fails: at rotation 45 (a rotation a netlist can give a
component), with the mouse nearer to the right edge of the box, `TerminalClick`
returns `INPUT`; by the claim's words the terminal is `OUTPUT`, since the
rotation is neither 270 nor 180. -/
theorem TerminalClick_other_rotation :
    TerminalClick ⟨0, 0, 10, 10⟩ 45 (9, 5) = (TerminalType.INPUT, (10, 5)) ∧
    nearerEdge ⟨0, 0, 10, 10⟩ 45 (9, 5) = Edge.right ∧
    claimedTerminal 45 (nearerEdge ⟨0, 0, 10, 10⟩ 45 (9, 5)) = TerminalType.OUTPUT := by
  have h1 : |(9 : ℚ) - (0 + 10)| = 1 := by norm_num [abs_of_neg]
  have h2 : |(9 : ℚ) - 0| = 9 := by norm_num [abs_of_nonneg]
  have hn : nearerEdge ⟨0, 0, 10, 10⟩ 45 (9, 5) = Edge.right := by
    simp only [nearerEdge, h1, h2]
    norm_num
  refine ⟨?_, hn, ?_⟩
  · simp only [TerminalClick, h1, h2]
    norm_num
  · rw [hn]
    decide

theorem branchRotation_of_four (rot : ℤ)
    (h : rot = 0 ∨ rot = 90 ∨ rot = 180 ∨ rot = 270) : branchRotation rot = rot := by
  rcases h with h | h | h | h <;> subst h <;> decide

theorem TerminalClick_eq (bounds : FloatRect) (rot : ℤ) (mouse : ℚ × ℚ) :
    TerminalClick bounds rot mouse =
      (claimedTerminal (branchRotation rot) (nearerEdge bounds rot mouse),
        edgeMidpoint bounds (nearerEdge bounds rot mouse)) := by
  by_cases h90 : rot = 90
  · subst h90
    by_cases hc : |mouse.2 - (bounds.top + bounds.height)| < |mouse.2 - bounds.top|
    · simp [TerminalClick, nearerEdge, hc, claimedTerminal, branchRotation, edgeMidpoint]
    · simp [TerminalClick, nearerEdge, hc, claimedTerminal, branchRotation, edgeMidpoint]
  · by_cases h270 : rot = 270
    · subst h270
      by_cases hc : |mouse.2 - (bounds.top + bounds.height)| < |mouse.2 - bounds.top|
      · simp [TerminalClick, nearerEdge, hc, claimedTerminal, branchRotation, edgeMidpoint]
      · simp [TerminalClick, nearerEdge, hc, claimedTerminal, branchRotation, edgeMidpoint]
    · by_cases h0 : rot = 0
      · subst h0
        by_cases hc : |mouse.1 - (bounds.left + bounds.width)| < |mouse.1 - bounds.left|
        · simp [TerminalClick, nearerEdge, hc, claimedTerminal, branchRotation, edgeMidpoint]
        · simp [TerminalClick, nearerEdge, hc, claimedTerminal, branchRotation, edgeMidpoint]
      · by_cases hc : |mouse.1 - (bounds.left + bounds.width)| < |mouse.1 - bounds.left|
        · simp [TerminalClick, nearerEdge, hc, claimedTerminal, branchRotation, edgeMidpoint,
            h90, h270, h0]
        · simp [TerminalClick, nearerEdge, hc, claimedTerminal, branchRotation, edgeMidpoint,
            h90, h270, h0]

theorem nearerEdge_half_turn (bounds : FloatRect) (rot : ℤ) (mouse : ℚ × ℚ)
    (h : rot = 0 ∨ rot = 90 ∨ rot = 180 ∨ rot = 270) :
    nearerEdge bounds ((rot + 180) % 360) mouse = nearerEdge bounds rot mouse := by
  rcases h with h | h | h | h <;> subst h <;> simp [nearerEdge]

theorem claimedTerminal_half_turn (rot : ℤ) (edge : Edge)
    (h : rot = 0 ∨ rot = 90 ∨ rot = 180 ∨ rot = 270)
    (hedge : (rot = 90 ∨ rot = 270) ↔ (edge = Edge.top ∨ edge = Edge.bottom)) :
    claimedTerminal ((rot + 180) % 360) edge = (claimedTerminal rot edge).other := by
  rcases h with h | h | h | h <;> subst h <;> cases edge <;> simp at hedge <;> decide

theorem nearerEdge_axis (bounds : FloatRect) (rot : ℤ) (mouse : ℚ × ℚ) :
    (rot = 90 ∨ rot = 270) ↔
      (nearerEdge bounds rot mouse = Edge.top ∨ nearerEdge bounds rot mouse = Edge.bottom) := by
  unfold nearerEdge
  by_cases h : rot = 90 ∨ rot = 270
  · simp only [h, if_true, true_iff]
    split
    · exact Or.inr rfl
    · exact Or.inl rfl
  · simp only [h, if_false, false_iff]
    split <;> simp

/-- C16, amended: for every bounding box, mouse position and rotation,
`TerminalClick` returns the midpoint of the box edge nearer to the mouse along
the component's axis (top or bottom for the rotations 90 and 270, left or right
otherwise, ties to top and left); the terminal is the claimed one for the
rotations 0, 90, 180 and 270, and every other rotation is treated as 180.  For
the four rotations, a half turn swaps the terminal and keeps the
coordinates. -/
theorem TerminalClick_spec (bounds : FloatRect) (rot : ℤ) (mouse : ℚ × ℚ) :
    TerminalClick bounds rot mouse =
      (claimedTerminal (branchRotation rot) (nearerEdge bounds rot mouse),
        edgeMidpoint bounds (nearerEdge bounds rot mouse)) ∧
    ((rot = 0 ∨ rot = 90 ∨ rot = 180 ∨ rot = 270) →
      TerminalClick bounds rot mouse =
        (claimedTerminal rot (nearerEdge bounds rot mouse),
          edgeMidpoint bounds (nearerEdge bounds rot mouse)) ∧
      TerminalClick bounds ((rot + 180) % 360) mouse =
        ((TerminalClick bounds rot mouse).1.other, (TerminalClick bounds rot mouse).2)) ∧
    ((rot ≠ 0 ∧ rot ≠ 90 ∧ rot ≠ 270) →
      TerminalClick bounds rot mouse = TerminalClick bounds 180 mouse) := by
  refine ⟨TerminalClick_eq bounds rot mouse, ?_, ?_⟩
  · intro h
    have hb := branchRotation_of_four rot h
    have h2 : (rot + 180) % 360 = 0 ∨ (rot + 180) % 360 = 90 ∨ (rot + 180) % 360 = 180 ∨
        (rot + 180) % 360 = 270 := by
      rcases h with h | h | h | h <;> subst h <;> decide
    refine ⟨?_, ?_⟩
    · rw [TerminalClick_eq, hb]
    · rw [TerminalClick_eq bounds rot mouse, TerminalClick_eq bounds ((rot + 180) % 360) mouse,
        branchRotation_of_four _ h2, hb, nearerEdge_half_turn bounds rot mouse h,
        claimedTerminal_half_turn rot _ h (nearerEdge_axis bounds rot mouse)]
  · rintro ⟨h0, h90, h270⟩
    rw [TerminalClick_eq bounds rot mouse, TerminalClick_eq bounds 180 mouse]
    have hb : branchRotation rot = 180 := by simp [branchRotation, h0, h90, h270]
    have hn : nearerEdge bounds rot mouse = nearerEdge bounds 180 mouse := by
      simp [nearerEdge, h90, h270]
    rw [hb, hn]
    rfl

/-! ## Editing a value -/

/-- C17: when OK is pressed in the value popup, the edited component gets the
entered value if the entered value is above `0` or the component is `ACTIVE`,
and otherwise (a passive component and an entered value of `0` or less) is
left as it was; nothing but the value changes; in both cases
`editingComponent_` is null afterwards. -/
theorem RenderPopupOK_value (e : CircuitSimulatorGUI) (editing : GUIComponent)
    (he : e.editingComponent_ = some editing) (ha : e.action_ = Action.EDIT_VALUE) :
    ∃ after, e.RenderPopupOK = some (after, none) ∧
      ((e.popup_value_ > 0 ∨ editing.GetClass = ComponentClass.ACTIVE) →
        after = editing.SetValue e.popup_value_ ∧ after.GetValue = e.popup_value_) ∧
      ((e.popup_value_ ≤ 0 ∧ editing.GetClass = ComponentClass.PASSIVE) → after = editing) ∧
      (after.GetValue ≠ editing.GetValue →
        (e.popup_value_ > 0 ∨ editing.GetClass = ComponentClass.ACTIVE)) ∧
      after.GetName = editing.GetName ∧ after.GetType = editing.GetType ∧
      after.GetTerminalNode .INPUT = editing.GetTerminalNode .INPUT ∧
      after.GetTerminalNode .OUTPUT = editing.GetTerminalNode .OUTPUT := by
  by_cases hc : e.popup_value_ > 0 ∨ editing.GetClass = ComponentClass.ACTIVE
  · refine ⟨editing.SetValue e.popup_value_, ?_, ?_, ?_, ?_, rfl, rfl, rfl, rfl⟩
    · simp [CircuitSimulatorGUI.RenderPopupOK, he, ha, hc]
    · intro _
      exact ⟨rfl, rfl⟩
    · rintro ⟨h1, h2⟩
      rcases hc with hc | hc
      · exact absurd hc (not_lt.mpr h1)
      · rw [h2] at hc
        cases hc
    · intro _
      exact hc
  · refine ⟨editing, ?_, ?_, ?_, ?_, rfl, rfl, rfl, rfl⟩
    · simp [CircuitSimulatorGUI.RenderPopupOK, he, ha, hc]
    · intro h
      exact absurd h hc
    · intro _
      rfl
    · intro h
      exact absurd rfl h

/-- C17 on the editor in which `0` has been entered for the resistor `R0`. -/
theorem RenderPopupOK_value_zero :
    ∃ after, editingEditor.RenderPopupOK = some (after, none) ∧
      ((editingEditor.popup_value_ > 0 ∨
          GUIComponent.GetClass ⟨⟨"R0", .RESISTOR, 50, some "N001", some "N002"⟩, 100, 60, 90⟩ =
            ComponentClass.ACTIVE) →
        after = GUIComponent.SetValue
            ⟨⟨"R0", .RESISTOR, 50, some "N001", some "N002"⟩, 100, 60, 90⟩
            editingEditor.popup_value_ ∧
          after.GetValue = editingEditor.popup_value_) ∧
      ((editingEditor.popup_value_ ≤ 0 ∧
          GUIComponent.GetClass ⟨⟨"R0", .RESISTOR, 50, some "N001", some "N002"⟩, 100, 60, 90⟩ =
            ComponentClass.PASSIVE) →
        after = ⟨⟨"R0", .RESISTOR, 50, some "N001", some "N002"⟩, 100, 60, 90⟩) ∧
      (after.GetValue ≠
          GUIComponent.GetValue ⟨⟨"R0", .RESISTOR, 50, some "N001", some "N002"⟩, 100, 60, 90⟩ →
        (editingEditor.popup_value_ > 0 ∨
          GUIComponent.GetClass ⟨⟨"R0", .RESISTOR, 50, some "N001", some "N002"⟩, 100, 60, 90⟩ =
            ComponentClass.ACTIVE)) ∧
      after.GetName =
        GUIComponent.GetName ⟨⟨"R0", .RESISTOR, 50, some "N001", some "N002"⟩, 100, 60, 90⟩ ∧
      after.GetType =
        GUIComponent.GetType ⟨⟨"R0", .RESISTOR, 50, some "N001", some "N002"⟩, 100, 60, 90⟩ ∧
      after.GetTerminalNode .INPUT = GUIComponent.GetTerminalNode
        ⟨⟨"R0", .RESISTOR, 50, some "N001", some "N002"⟩, 100, 60, 90⟩ .INPUT ∧
      after.GetTerminalNode .OUTPUT = GUIComponent.GetTerminalNode
        ⟨⟨"R0", .RESISTOR, 50, some "N001", some "N002"⟩, 100, 60, 90⟩ .OUTPUT :=
  RenderPopupOK_value editingEditor
    ⟨⟨"R0", .RESISTOR, 50, some "N001", some "N002"⟩, 100, 60, 90⟩ rfl rfl

/-! ## The distance to a segment -/

theorem clampedParameter_cases {K : Type} [LinearOrderedField K] (mouse P_1 P_2 : K × K)
    (h : lengthSq P_1 P_2 ≠ 0) :
    (clampedParameter mouse P_1 P_2 = 0 ∧
        dot (mouse.1 - P_1.1, mouse.2 - P_1.2) (P_2.1 - P_1.1, P_2.2 - P_1.2) ≤ 0) ∨
    (clampedParameter mouse P_1 P_2 = 1 ∧
        lengthSq P_1 P_2 ≤
          dot (mouse.1 - P_1.1, mouse.2 - P_1.2) (P_2.1 - P_1.1, P_2.2 - P_1.2)) ∨
    (0 ≤ clampedParameter mouse P_1 P_2 ∧ clampedParameter mouse P_1 P_2 ≤ 1 ∧
      clampedParameter mouse P_1 P_2 * lengthSq P_1 P_2 =
        dot (mouse.1 - P_1.1, mouse.2 - P_1.2) (P_2.1 - P_1.1, P_2.2 - P_1.2)) := by
  have hpos : 0 < lengthSq P_1 P_2 := by
    have : 0 ≤ lengthSq P_1 P_2 := by
      unfold lengthSq
      positivity
    exact lt_of_le_of_ne this (Ne.symm h)
  unfold clampedParameter
  set c := dot (mouse.1 - P_1.1, mouse.2 - P_1.2) (P_2.1 - P_1.1, P_2.2 - P_1.2) with hc
  set l := lengthSq P_1 P_2 with hl
  by_cases h0 : c / l ≤ 0
  · left
    refine ⟨?_, ?_⟩
    · rw [min_eq_right (le_trans h0 zero_le_one), max_eq_left h0]
    · have := mul_le_mul_of_nonneg_right h0 (le_of_lt hpos)
      rwa [div_mul_cancel₀ c h, zero_mul] at this
  · by_cases h1 : 1 ≤ c / l
    · right; left
      refine ⟨?_, ?_⟩
      · rw [min_eq_left h1, max_eq_right zero_le_one]
      · have := mul_le_mul_of_nonneg_right h1 (le_of_lt hpos)
        rwa [div_mul_cancel₀ c h, one_mul] at this
    · right; right
      push_neg at h0 h1
      rw [min_eq_right (le_of_lt h1), max_eq_right (le_of_lt h0)]
      exact ⟨le_of_lt h0, le_of_lt h1, div_mul_cancel₀ c h⟩

theorem clampedParameter_mem {K : Type} [LinearOrderedField K] (mouse P_1 P_2 : K × K) :
    0 ≤ clampedParameter mouse P_1 P_2 ∧ clampedParameter mouse P_1 P_2 ≤ 1 := by
  unfold clampedParameter
  exact ⟨le_max_left _ _, max_le zero_le_one (min_le_left _ _)⟩

theorem distanceSq_projection_le {K : Type} [LinearOrderedField K] (mouse P_1 P_2 : K × K)
    (h : lengthSq P_1 P_2 ≠ 0) (s : K) (hs0 : 0 ≤ s) (hs1 : s ≤ 1) :
    distanceSq mouse (projection mouse P_1 P_2) ≤ distanceSq mouse (pointAt P_1 P_2 s) := by
  have hl : 0 ≤ lengthSq P_1 P_2 := by
    unfold lengthSq
    positivity
  rcases clampedParameter_cases mouse P_1 P_2 h with ⟨ht, hc⟩ | ⟨ht, hc⟩ | ⟨-, -, ht⟩
  · unfold projection
    rw [ht]
    unfold distanceSq pointAt
    unfold dot at hc
    unfold lengthSq at hl
    dsimp only at hc ⊢
    nlinarith [mul_nonneg hs0 hl, mul_nonneg hs0 (mul_nonneg hs0 hl), mul_nonneg hs0 (neg_nonneg.mpr hc)]
  · unfold projection
    rw [ht]
    unfold distanceSq pointAt
    unfold dot lengthSq at hc
    unfold lengthSq at hl
    dsimp only at hc ⊢
    nlinarith [mul_nonneg (sub_nonneg.mpr hs1) hl, mul_nonneg (sub_nonneg.mpr hs1) (sub_nonneg.mpr hc),
      mul_nonneg (sub_nonneg.mpr hs1) (mul_nonneg hs0 hl)]
  · unfold projection
    unfold distanceSq pointAt
    unfold dot lengthSq at ht
    unfold lengthSq at hl
    dsimp only at ht ⊢
    generalize clampedParameter mouse P_1 P_2 = t at ht ⊢
    have hz : t * ((P_2.1 - P_1.1) ^ 2 + (P_2.2 - P_1.2) ^ 2) -
        ((mouse.1 - P_1.1) * (P_2.1 - P_1.1) + (mouse.2 - P_1.2) * (P_2.2 - P_1.2)) = 0 := by
      rw [ht, sub_self]
    have e : (mouse.1 - (P_1.1 + s * (P_2.1 - P_1.1))) ^ 2 +
          (mouse.2 - (P_1.2 + s * (P_2.2 - P_1.2))) ^ 2 -
        ((mouse.1 - (P_1.1 + t * (P_2.1 - P_1.1))) ^ 2 +
          (mouse.2 - (P_1.2 + t * (P_2.2 - P_1.2))) ^ 2) =
        (s - t) ^ 2 * ((P_2.1 - P_1.1) ^ 2 + (P_2.2 - P_1.2) ^ 2) +
          2 * (s - t) * (t * ((P_2.1 - P_1.1) ^ 2 + (P_2.2 - P_1.2) ^ 2) -
            ((mouse.1 - P_1.1) * (P_2.1 - P_1.1) + (mouse.2 - P_1.2) * (P_2.2 - P_1.2))) := by
      ring
    rw [hz, mul_zero, add_zero] at e
    have hnn := mul_nonneg (sq_nonneg (s - t)) hl
    linarith

theorem lengthSq_ne_zero {K : Type} [LinearOrderedField K] (P_1 P_2 : K × K)
    (h : P_1 ≠ P_2) : lengthSq P_1 P_2 ≠ 0 := by
  intro hz
  apply h
  unfold lengthSq at hz
  have h1 : 0 ≤ (P_2.1 - P_1.1) ^ 2 := sq_nonneg _
  have h2 : 0 ≤ (P_2.2 - P_1.2) ^ 2 := sq_nonneg _
  have e1 : (P_2.1 - P_1.1) ^ 2 = 0 := by linarith
  have e2 : (P_2.2 - P_1.2) ^ 2 = 0 := by linarith
  have d1 : P_2.1 - P_1.1 = 0 := pow_eq_zero_iff (two_ne_zero) |>.mp e1
  have d2 : P_2.2 - P_1.2 = 0 := pow_eq_zero_iff (two_ne_zero) |>.mp e2
  exact Prod.ext (by linarith) (by linarith)

theorem dist_eq_sqrt_distanceSq (M Q : EuclideanSpace ℝ (Fin 2)) :
    dist M Q = Real.sqrt (distanceSq (M 0, M 1) (Q 0, Q 1)) := by
  rw [EuclideanSpace.dist_eq, Fin.sum_univ_two]
  simp only [Real.dist_eq, sq_abs, distanceSq]

theorem coordinates_ne (P1 P2 : EuclideanSpace ℝ (Fin 2)) (h : P1 ≠ P2) :
    ((P1 0, P1 1) : ℝ × ℝ) ≠ (P2 0, P2 1) := by
  intro hc
  apply h
  have h0 : P1 0 = P2 0 := congrArg Prod.fst hc
  have h1 : P1 1 = P2 1 := congrArg Prod.snd hc
  funext i
  fin_cases i
  · exact h0
  · exact h1

theorem segment_coordinates (P1 P2 Q : EuclideanSpace ℝ (Fin 2)) (h : Q ∈ segment ℝ P1 P2) :
    ∃ s : ℝ, 0 ≤ s ∧ s ≤ 1 ∧ ((Q 0, Q 1) : ℝ × ℝ) = pointAt (P1 0, P1 1) (P2 0, P2 1) s := by
  obtain ⟨a, b, ha, hb, hab, rfl⟩ := h
  refine ⟨b, hb, by linarith, ?_⟩
  have ha' : a = 1 - b := by linarith
  subst ha'
  ext
  · simp [pointAt]
    ring
  · simp [pointAt]
    ring

theorem clampedParameter_inner (M P1 P2 : EuclideanSpace ℝ (Fin 2)) :
    clampedParameter ((M 0, M 1) : ℝ × ℝ) (P1 0, P1 1) (P2 0, P2 1) =
      max 0 (min 1 (@inner ℝ _ _ (M - P1) (P2 - P1) / ‖P2 - P1‖ ^ 2)) := by
  have hi : @inner ℝ _ _ (M - P1) (P2 - P1) =
      dot ((M 0 - P1 0, M 1 - P1 1) : ℝ × ℝ) (P2 0 - P1 0, P2 1 - P1 1) := by
    simp [PiLp.inner_apply, Fin.sum_univ_two, dot]
  have hn : ‖P2 - P1‖ ^ 2 = lengthSq ((P1 0, P1 1) : ℝ × ℝ) (P2 0, P2 1) := by
    rw [EuclideanSpace.norm_eq, Real.sq_sqrt (Finset.sum_nonneg fun i _ => sq_nonneg _),
      Fin.sum_univ_two]
    simp [lengthSq]
  rw [hi, hn]
  rfl

/-- C18: for every segment with distinct endpoints `P1 ≠ P2` and every mouse
position `M` in the Euclidean plane, the `t` of `WireClick` is the projection
parameter `((M − P1)·(P2 − P1))/|P2 − P1|²` clamped to `[0, 1]`, and the
distance `d` that `WireClick` computes from it (the square root of
`segmentDistanceSq`) is the minimum Euclidean distance from `M` to the closed
segment `[P1, P2]`: the point `Q* = P1 + t·(P2 − P1)` lies on the segment,
`d = |M − Q*|`, `d ≤ |M − Q|` for every point `Q` of the segment, and `d` is
the distance from `M` to the segment as a set. -/
theorem WireClick_distance_minimal (M P1 P2 : EuclideanSpace ℝ (Fin 2)) (h : P1 ≠ P2) :
    clampedParameter ((M 0, M 1) : ℝ × ℝ) (P1 0, P1 1) (P2 0, P2 1) =
      max 0 (min 1 (@inner ℝ _ _ (M - P1) (P2 - P1) / ‖P2 - P1‖ ^ 2)) ∧
    (∃ Q ∈ segment ℝ P1 P2,
      ((Q 0, Q 1) : ℝ × ℝ) = projection (M 0, M 1) (P1 0, P1 1) (P2 0, P2 1) ∧
      Real.sqrt (segmentDistanceSq ((M 0, M 1) : ℝ × ℝ) (P1 0, P1 1) (P2 0, P2 1)) =
        dist M Q) ∧
    (∀ Q ∈ segment ℝ P1 P2,
      Real.sqrt (segmentDistanceSq ((M 0, M 1) : ℝ × ℝ) (P1 0, P1 1) (P2 0, P2 1)) ≤
        dist M Q) ∧
    Real.sqrt (segmentDistanceSq ((M 0, M 1) : ℝ × ℝ) (P1 0, P1 1) (P2 0, P2 1)) =
      Metric.infDist M (segment ℝ P1 P2) := by
  have hl := lengthSq_ne_zero _ _ (coordinates_ne P1 P2 h)
  have hd : segmentDistanceSq ((M 0, M 1) : ℝ × ℝ) (P1 0, P1 1) (P2 0, P2 1) =
      distanceSq (M 0, M 1) (projection (M 0, M 1) (P1 0, P1 1) (P2 0, P2 1)) := by
    unfold segmentDistanceSq
    rw [if_neg hl]
  obtain ⟨ht0, ht1⟩ := clampedParameter_mem ((M 0, M 1) : ℝ × ℝ) (P1 0, P1 1) (P2 0, P2 1)
  have hmin : ∀ Q ∈ segment ℝ P1 P2,
      Real.sqrt (segmentDistanceSq ((M 0, M 1) : ℝ × ℝ) (P1 0, P1 1) (P2 0, P2 1)) ≤
        dist M Q := by
    intro Q hQ
    obtain ⟨s, hs0, hs1, hs⟩ := segment_coordinates P1 P2 Q hQ
    rw [dist_eq_sqrt_distanceSq, hd, hs]
    exact Real.sqrt_le_sqrt (distanceSq_projection_le _ _ _ hl s hs0 hs1)
  have hQ : ∃ Q ∈ segment ℝ P1 P2,
      ((Q 0, Q 1) : ℝ × ℝ) = projection (M 0, M 1) (P1 0, P1 1) (P2 0, P2 1) ∧
      Real.sqrt (segmentDistanceSq ((M 0, M 1) : ℝ × ℝ) (P1 0, P1 1) (P2 0, P2 1)) =
        dist M Q := by
    have hc : (((1 - clampedParameter ((M 0, M 1) : ℝ × ℝ) (P1 0, P1 1) (P2 0, P2 1)) • P1 +
          clampedParameter ((M 0, M 1) : ℝ × ℝ) (P1 0, P1 1) (P2 0, P2 1) • P2) 0,
        ((1 - clampedParameter ((M 0, M 1) : ℝ × ℝ) (P1 0, P1 1) (P2 0, P2 1)) • P1 +
          clampedParameter ((M 0, M 1) : ℝ × ℝ) (P1 0, P1 1) (P2 0, P2 1) • P2) 1) =
        projection ((M 0, M 1) : ℝ × ℝ) (P1 0, P1 1) (P2 0, P2 1) := by
      ext
      · simp [projection, pointAt]
        ring
      · simp [projection, pointAt]
        ring
    refine ⟨_, ⟨1 - clampedParameter ((M 0, M 1) : ℝ × ℝ) (P1 0, P1 1) (P2 0, P2 1),
      clampedParameter ((M 0, M 1) : ℝ × ℝ) (P1 0, P1 1) (P2 0, P2 1),
      by linarith, ht0, by ring, rfl⟩, hc, ?_⟩
    rw [dist_eq_sqrt_distanceSq, hc, hd]
  refine ⟨clampedParameter_inner M P1 P2, hQ, hmin, ?_⟩
  obtain ⟨Q, hQm, -, hQd⟩ := hQ
  apply le_antisymm
  · apply le_of_not_lt
    intro hlt
    obtain ⟨y, hy, hyd⟩ := (Metric.infDist_lt_iff ⟨Q, hQm⟩).mp hlt
    exact absurd (hmin y hy) (not_le.mpr hyd)
  · rw [hQd]
    exact Metric.infDist_le_dist_of_mem hQm

/-- C18 for the mouse at `(3, 4)` and the segment from `(0, 0)` to `(1, 0)`:
the endpoints differ, and the distance from the mouse to the segment is `√20`,
the distance to the endpoint `(1, 0)`. -/
theorem WireClick_distance_minimal_example :
    (WithLp.equiv 2 (Fin 2 → ℝ)).symm ![0, 0] ≠ (WithLp.equiv 2 (Fin 2 → ℝ)).symm ![1, 0] ∧
    Metric.infDist ((WithLp.equiv 2 (Fin 2 → ℝ)).symm ![3, 4])
      (segment ℝ ((WithLp.equiv 2 (Fin 2 → ℝ)).symm ![0, 0])
        ((WithLp.equiv 2 (Fin 2 → ℝ)).symm ![1, 0])) = Real.sqrt 20 := by
  have hne : (WithLp.equiv 2 (Fin 2 → ℝ)).symm ![0, 0] ≠
      (WithLp.equiv 2 (Fin 2 → ℝ)).symm ![1, 0] :=
    fun hc => zero_ne_one (congrFun hc 0)
  refine ⟨hne, ?_⟩
  rw [← (WireClick_distance_minimal ((WithLp.equiv 2 (Fin 2 → ℝ)).symm ![3, 4])
    ((WithLp.equiv 2 (Fin 2 → ℝ)).symm ![0, 0]) ((WithLp.equiv 2 (Fin 2 → ℝ)).symm ![1, 0])
    hne).2.2.2]
  norm_num [segmentDistanceSq, lengthSq, distanceSq, projection, pointAt, clampedParameter, dot]

/-! ## `WireClick` -/

theorem segmentsHit_iff (mouse : ℚ × ℚ) (vertices : List (ℚ × ℚ)) :
    segmentsHit mouse vertices = true ↔
      ∃ i P_1 P_2, vertices[i]? = some P_1 ∧ vertices[i + 1]? = some P_2 ∧
        segmentDistanceSq mouse P_1 P_2 ≤ 25 := by
  induction vertices with
  | nil => simp [segmentsHit]
  | cons P rest ih =>
    cases rest with
    | nil =>
      simp only [segmentsHit, Bool.false_eq_true, false_iff]
      rintro ⟨i, P_1, P_2, -, h2, -⟩
      simp at h2
    | cons P' rest =>
      simp only [segmentsHit, Bool.or_eq_true, segmentHit, decide_eq_true_eq, ih]
      constructor
      · rintro (h | ⟨i, P_1, P_2, h1, h2, h3⟩)
        · exact ⟨0, P, P', by simp, by simp, h⟩
        · exact ⟨i + 1, P_1, P_2, by simpa using h1, by simpa using h2, h3⟩
      · rintro ⟨i, P_1, P_2, h1, h2, h3⟩
        cases i with
        | zero =>
          simp only [List.getElem?_cons_zero, Option.some.injEq, zero_add,
            List.getElem?_cons_succ] at h1 h2
          subst h1 h2
          exact Or.inl h3
        | succ i =>
          exact Or.inr ⟨i, P_1, P_2, by simpa using h1, by simpa using h2, h3⟩

theorem wireHit_of_vertices (mouse : ℚ × ℚ) (wire : GUIWire) (h : wire.vertices ≠ []) :
    wireHit mouse wire = some (segmentsHit mouse wire.vertices) := by
  unfold wireHit
  split
  · rename_i h0
    exact absurd h0 h
  · rfl

theorem wireHit_true_iff (mouse : ℚ × ℚ) (wire : GUIWire) (h : wire.vertices ≠ []) :
    wireHit mouse wire = some true ↔ HasNearSegment mouse wire := by
  rw [wireHit_of_vertices mouse wire h, Option.some.injEq, segmentsHit_iff]
  rfl

/-- On a list of wires that all have a vertex, `WireClick` returns the position
of the first wire in list order that has a segment between consecutive
vertices at distance at most 5 from the mouse, and the end position exactly
when no wire has one. -/
theorem WireClick_first_near (wires : List GUIWire) (mouse : ℚ × ℚ)
    (h : ∀ w ∈ wires, w.vertices ≠ []) :
    ∃ i, WireClick wires mouse = some i ∧ i ≤ wires.length ∧
      (∀ j w, j < i → wires[j]? = some w → ¬ HasNearSegment mouse w) ∧
      (i < wires.length → ∃ w, wires[i]? = some w ∧ HasNearSegment mouse w) ∧
      (i = wires.length ↔ ∀ w ∈ wires, ¬ HasNearSegment mouse w) := by
  induction wires with
  | nil => exact ⟨0, rfl, le_refl _, by simp, by simp, by simp⟩
  | cons wire rest ih =>
    have hw : wire.vertices ≠ [] := h wire (List.mem_cons_self _ _)
    obtain ⟨i, hi, hle, hbefore, hat, hend⟩ := ih fun w hw => h w (List.mem_cons_of_mem _ hw)
    by_cases hn : HasNearSegment mouse wire
    · refine ⟨0, ?_, Nat.zero_le _, by simp, ?_, ?_⟩
      · simp [WireClick, (wireHit_true_iff mouse wire hw).mpr hn]
      · intro _
        exact ⟨wire, by simp, hn⟩
      · constructor
        · intro h0
          simp at h0
        · intro hall
          exact absurd hn (hall wire (List.mem_cons_self _ _))
    · have hf : wireHit mouse wire = some false := by
        rw [wireHit_of_vertices mouse wire hw]
        cases hs : segmentsHit mouse wire.vertices with
        | false => rfl
        | true =>
          exfalso
          apply hn
          rw [← wireHit_true_iff mouse wire hw, wireHit_of_vertices mouse wire hw, hs]
      refine ⟨i + 1, ?_, ?_, ?_, ?_, ?_⟩
      · simp [WireClick, hf, hi]
      · simpa using hle
      · intro j w hj hjw
        cases j with
        | zero =>
          simp only [List.getElem?_cons_zero, Option.some.injEq] at hjw
          subst hjw
          exact hn
        | succ j => exact hbefore j w (by omega) (by simpa using hjw)
      · intro hlt
        obtain ⟨w, hw1, hw2⟩ := hat (by simpa using hlt)
        exact ⟨w, by simpa using hw1, hw2⟩
      · constructor
        · intro heq w hmem
          rcases List.mem_cons.mp hmem with rfl | hmem
          · exact hn
          · exact hend.mp (by simpa using heq) w hmem
        · intro hall
          have := hend.mpr fun w hmem => hall w (List.mem_cons_of_mem _ hmem)
          simp [this]

/-- C15 (code defect): a wire without vertices, as `LoadCircuit` makes one from
the record `W N001 0 0`, has no segment at all, so the claim has `WireClick`
return the end position; the loop bound `getVertexCount() - 1` wraps for it
and `WireClick` reads vertices that do not exist: it has no defined result. -/
theorem WireClick_wire_without_vertices :
    (∃ e, CircuitSimulatorGUI.initial.LoadCircuit wholeText (fileLines ["W N001 0 0"]) = .ok e ∧
      e.wires_ = [⟨some "N001", [], [], []⟩]) ∧
    WireClick [⟨some "N001", [], [], []⟩] (0, 0) = none ∧
    ¬ HasNearSegment (0, 0) ⟨some "N001", [], [], []⟩ := by
  refine ⟨⟨_, rfl, rfl⟩, rfl, ?_⟩
  rintro ⟨i, P_1, P_2, h1, -, -⟩
  simp at h1

/-! ## `CancelAllActions` -/

/-- C14 (code defect): `CancelAllActions` removes the last element of a list
whenever the matching pointer is set, whether or not that element is the
pending one.  With a pending ground marker that a click in delete mode has
erased from `grounds_`, it removes the placed marker at `N002` instead and the
node `N002` stops being a ground; with a pending wire that has left the list
(`wires_.remove(addingWire_)`), it removes the older wire, or calls
`pop_back()` on an empty list when there is none. -/
theorem CancelAllActions_removes_placed :
    (erasedPendingGround.grounds_ = [⟨some "N002", 100, 100⟩] ∧
      erasedPendingGround.addingGround_ = some ⟨none, 40, 40⟩ ∧
      nodeTypeOf erasedPendingGround.circuit_.nodes_ "N002" = some NodeType.GROUND ∧
      ∃ e, erasedPendingGround.CancelAllActions = .ok e ∧ e.grounds_ = [] ∧
        nodeTypeOf e.circuit_.nodes_ "N002" = some NodeType.NORMAL) ∧
    (drawingEditor.removeAddingWire.wires_ =
        [⟨some "N001", [(100, 20), (140, 20)], ["R0"], []⟩] ∧
      drawingEditor.removeAddingWire.addingWire_ =
        some (.unlisted ⟨some "N002", [(100, 100), (100, 120)], ["R0"], []⟩) ∧
      ∃ e, drawingEditor.removeAddingWire.CancelAllActions = .ok e ∧ e.wires_ = []) ∧
    ({ drawingEditor with
        wires_ := [⟨some "N002", [(100, 100), (100, 120)], ["R0"], []⟩]
        addingWire_ := some (.listed 0) }.removeAddingWire.CancelAllActions =
      .error "pop_back() on an empty list") :=
  ⟨⟨rfl, rfl, rfl, _, rfl, rfl, rfl⟩, ⟨rfl, rfl, _, rfl, rfl⟩, rfl⟩

/-! ## Wire records -/

theorem digitChar_digit (m : ℕ) (h : m < 10) :
    (Nat.digitChar m).isDigit = true ∧ (Nat.digitChar m).toNat - '0'.toNat = m := by
  interval_cases m <;> exact ⟨by decide, by decide⟩

theorem digitsValue_append (pre : List Char) (d : Char) :
    digitsValue (pre ++ [d]) = 10 * digitsValue pre + (d.toNat - '0'.toNat) := by
  simp [digitsValue, List.foldl_append]

theorem toDigitsCore_spec (fuel : ℕ) :
    ∀ (n : ℕ) (ds : List Char), n < fuel →
      ∃ pre, Nat.toDigitsCore 10 fuel n ds = pre ++ ds ∧ pre ≠ [] ∧
        (∀ c ∈ pre, c.isDigit = true) ∧ digitsValue pre = n := by
  induction fuel with
  | zero => intro n ds h; omega
  | succ f ih =>
    intro n ds h
    have hd := digitChar_digit (n % 10) (Nat.mod_lt _ (by norm_num))
    simp only [Nat.toDigitsCore]
    by_cases h0 : n / 10 = 0
    · simp only [h0, if_true]
      refine ⟨[Nat.digitChar (n % 10)], rfl, by simp, by simpa using hd.1, ?_⟩
      have hn : n % 10 = n := Nat.mod_eq_of_lt (by omega)
      show List.foldl (fun n c => 10 * n + (c.toNat - '0'.toNat)) 0
        [Nat.digitChar (n % 10)] = n
      simp only [List.foldl]
      rw [hd.2, hn]
      omega
    · simp only [h0, if_false]
      obtain ⟨pre, hpre, -, hdig, hval⟩ := ih (n / 10) (Nat.digitChar (n % 10) :: ds) (by omega)
      refine ⟨pre ++ [Nat.digitChar (n % 10)], by simp [hpre], by simp, ?_, ?_⟩
      · intro c hc
        rcases List.mem_append.mp hc with hc | hc
        · exact hdig c hc
        · rw [List.mem_singleton.mp hc]
          exact hd.1
      · rw [digitsValue_append, hval, hd.2]
        omega

theorem toDigits_spec (n : ℕ) :
    Nat.toDigits 10 n ≠ [] ∧ (∀ c ∈ Nat.toDigits 10 n, c.isDigit = true) ∧
      digitsValue (Nat.toDigits 10 n) = n := by
  obtain ⟨pre, hpre, hne, hdig, hval⟩ := toDigitsCore_spec (n + 1) n [] (by omega)
  have : Nat.toDigits 10 n = pre := by simpa [Nat.toDigits] using hpre
  rw [this]
  exact ⟨hne, hdig, hval⟩

theorem toString_toList (n : ℕ) : (toString n).toList = Nat.toDigits 10 n := rfl

theorem isspace_of_isDigit (c : Char) (h : c.isDigit = true) : isspace c = false := by
  cases hs : isspace c with
  | false => rfl
  | true =>
    exfalso
    simp only [isspace, Bool.or_eq_true, beq_iff_eq] at hs
    rcases hs with ((((hs | hs) | hs) | hs) | hs) | hs <;> subst hs <;> exact absurd h (by decide)

theorem isToken_toString (n : ℕ) : IsToken (toString n) := by
  obtain ⟨hne, hdig, -⟩ := toDigits_spec n
  refine ⟨by rw [toString_toList]; exact hne, ?_⟩
  intro c hc
  rw [toString_toList] at hc
  exact isspace_of_isDigit c (hdig c hc)

theorem readNat_toDigits (n : ℕ) : readNat (Nat.toDigits 10 n) = some n := by
  obtain ⟨hne, hdig, hval⟩ := toDigits_spec n
  have h1 : (Nat.toDigits 10 n).isEmpty = false := by
    cases h : Nat.toDigits 10 n with
    | nil => exact absurd h hne
    | cons _ _ => rfl
  have h2 : (Nat.toDigits 10 n).all Char.isDigit = true := List.all_eq_true.mpr hdig
  simp [readNat, h1, h2, hval]

theorem readInt_toString (n : ℕ) : readInt (toString n) = some (n : ℤ) := by
  obtain ⟨hne, hdig, -⟩ := toDigits_spec n
  unfold readInt
  rw [toString_toList]
  cases h : Nat.toDigits 10 n with
  | nil => exact absurd h hne
  | cons c cs =>
    have hc : c.isDigit = true := hdig c (by rw [h]; exact List.mem_cons_self _ _)
    have hm : c ≠ '-' := fun e => by rw [e] at hc; exact absurd hc (by decide)
    have hp : c ≠ '+' := fun e => by rw [e] at hc; exact absurd hc (by decide)
    split
    · rename_i heq
      exact absurd (List.cons.inj heq).1 hm
    · rename_i heq
      exact absurd (List.cons.inj heq).1 hp
    · rw [← h, readNat_toDigits]
      rfl

theorem scanNat_toDigits (n : ℕ) : scanNat (Nat.toDigits 10 n) = some (n, []) := by
  obtain ⟨-, hdig, -⟩ := toDigits_spec n
  have ht : (Nat.toDigits 10 n).takeWhile Char.isDigit = Nat.toDigits 10 n :=
    List.takeWhile_eq_self_iff.mpr hdig
  have hd : (Nat.toDigits 10 n).dropWhile Char.isDigit = [] :=
    List.dropWhile_eq_nil_iff.mpr hdig
  simp [scanNat, ht, hd, readNat_toDigits]

theorem scanInt_toString (n : ℕ) : scanInt (toString n) = some ((n : ℤ), []) := by
  obtain ⟨hne, hdig, -⟩ := toDigits_spec n
  unfold scanInt
  rw [toString_toList]
  cases h : Nat.toDigits 10 n with
  | nil => exact absurd h hne
  | cons c cs =>
    have hc : c.isDigit = true := hdig c (by rw [h]; exact List.mem_cons_self _ _)
    have hm : c ≠ '-' := fun e => by rw [e] at hc; exact absurd hc (by decide)
    have hp : c ≠ '+' := fun e => by rw [e] at hc; exact absurd hc (by decide)
    split
    · rename_i heq
      exact absurd (List.cons.inj heq).1 hm
    · rename_i heq
      exact absurd (List.cons.inj heq).1 hp
    · rw [← h, scanNat_toDigits]
      rfl

theorem splitOnP_intercalate (fields : List (List Char)) (hne : fields ≠ [])
    (h : ∀ f ∈ fields, ∀ c ∈ f, isspace c = false) :
    ([' '].intercalate fields).splitOnP isspace = fields := by
  induction fields with
  | nil => exact absurd rfl hne
  | cons f rest ih =>
    have hf : ∀ c ∈ f, ¬ isspace c = true := by
      intro c hc
      rw [h f (List.mem_cons_self _ _) c hc]
      exact Bool.false_ne_true
    cases rest with
    | nil =>
      simp only [List.intercalate, List.intersperse, List.flatten, List.append_nil]
      exact List.splitOnP_eq_single isspace f hf
    | cons g rest =>
      have e : [' '].intercalate (f :: g :: rest) = f ++ ' ' :: [' '].intercalate (g :: rest) := by
        simp [List.intercalate, List.intersperse]
      rw [e, List.splitOnP_first isspace f hf ' ' (by decide),
        ih (by simp) fun f' hf' => h f' (List.mem_cons_of_mem _ hf')]

theorem words_of_fields (line : String) (fields : List String) (hne : fields ≠ [])
    (hline : line.toList = [' '].intercalate (fields.map String.toList))
    (h : ∀ f ∈ fields, IsToken f) : words line = fields := by
  unfold words
  rw [hline, splitOnP_intercalate _ (by simpa using hne)]
  · rw [List.filter_eq_self.mpr]
    · simp [List.map_map, Function.comp_def, String.toList]
    · intro w hw
      obtain ⟨f, hf, rfl⟩ := List.mem_map.mp hw
      have := (h f hf).1
      cases hfl : f.toList with
      | nil => exact absurd hfl this
      | cons _ _ => rfl
  · intro w hw c hc
    obtain ⟨f, hf, rfl⟩ := List.mem_map.mp hw
    exact (h f hf).2 c hc

theorem isToken_nodeText (node : Option String) (h : ∀ n, node = some n → IsToken n) :
    IsToken (nodeText node) := by
  cases node with
  | none => simp only [nodeText]; decide
  | some n => exact h n rfl

theorem words_wireHeader (wire : GUIWire) (h : ∀ n, wire.node_ = some n → IsToken n) :
    words (wireHeader wire) =
      ["W", nodeText wire.node_, toString wire.vertices.length,
        toString (wire.inputs.length + wire.outputs.length)] := by
  apply words_of_fields
  · simp
  · simp [wireHeader, toList_append, List.intercalate]
  · intro f hf
    simp only [List.mem_cons, List.mem_singleton, List.not_mem_nil, or_false] at hf
    rcases hf with hf | hf | hf | hf <;> subst hf
    · decide
    · exact isToken_nodeText _ h
    · exact isToken_toString _
    · exact isToken_toString _

theorem connectLine_node (m : StdMap GUIComponent) (w : GUIWire) (line : String) :
    (connectLine m w line).node_ = w.node_ := by
  unfold connectLine
  dsimp only
  split
  · split <;> rfl
  · rfl

theorem foldl_connectLine_node (m : StdMap GUIComponent) (lines : List String) :
    ∀ w : GUIWire, (lines.foldl (connectLine m) w).node_ = w.node_ := by
  induction lines with
  | nil => intro w; rfl
  | cons line rest ih =>
    intro w
    rw [List.foldl_cons, ih, connectLine_node]

theorem loadWire_counts (ft : FloatText) (node : String) (n k : ℕ) (rest : List String)
    (st : LoadState) :
    ∃ st1 w, loadWire ft ⟨[node, toString n, toString k], true⟩ rest st =
        .ok (st1, (rest.drop k).drop n) ∧
      st1.gui.wires_ = st.gui.wires_ ++ [w] ∧ w.node_ = some node ∧ w.vertices.length = n := by
  refine ⟨{ st with gui := { st.gui with
      circuit_ := st.gui.circuit_.AddNode node
      wires_ := st.gui.wires_ ++ [{ ((getlines k rest).1.foldl (connectLine st.comp_map)
          ⟨some node, List.replicate n (0, 0), [], []⟩) with
        vertices := (getlines n (getlines k rest).2).1.map (vertexOfLine ft) }] } },
    { ((getlines k rest).1.foldl (connectLine st.comp_map)
          ⟨some node, List.replicate n (0, 0), [], []⟩) with
        vertices := (getlines n (getlines k rest).2).1.map (vertexOfLine ft) }, ?_, rfl, ?_, ?_⟩
  · simp [loadWire, IStream.getString, IStream.getInt, scanInt_toString, getlines]
  · exact foldl_connectLine_node _ _ _
  · simp [getlines]
    omega

theorem wireLines_eq (ft : FloatText) (wire : GUIWire) :
    wireLines ft wire = wireHeader wire :: (wireConnections wire ++ wireVertices ft wire) := by
  simp [wireLines, wireHeader, wireConnections, wireVertices]

theorem newline_not_mem_wireLines (ft : FloatText) (wire : GUIWire)
    (hnode : ∀ n, wire.node_ = some n → IsToken n)
    (hnames : ∀ name ∈ wire.inputs ++ wire.outputs, NoSpace name) :
    ∀ line ∈ wireLines ft wire, '\n' ∉ line.toList := by
  intro line hline
  rw [wireLines_eq] at hline
  rcases List.mem_cons.mp hline with h | h
  · subst h
    have h1 := newline_not_mem _ (isToken_nodeText _ hnode).2
    have h2 := newline_not_mem _ (isToken_toString wire.vertices.length).2
    have h3 := newline_not_mem _ (isToken_toString (wire.inputs.length + wire.outputs.length)).2
    simp only [wireHeader, toList_append, List.mem_append, not_or]
    exact ⟨⟨⟨⟨⟨by decide, h1⟩, by decide⟩, h2⟩, by decide⟩, h3⟩
  · rcases List.mem_append.mp h with h | h
    · simp only [wireConnections, List.mem_append, List.mem_map] at h
      rcases h with ⟨name, hn, rfl⟩ | ⟨name, hn, rfl⟩
      · have := newline_not_mem _ (hnames name (List.mem_append_left _ hn))
        simp only [toList_append, List.mem_append, not_or]
        exact ⟨by decide, this⟩
      · have := newline_not_mem _ (hnames name (List.mem_append_right _ hn))
        simp only [toList_append, List.mem_append, not_or]
        exact ⟨by decide, this⟩
    · simp only [wireVertices, List.mem_map] at h
      obtain ⟨v, -, rfl⟩ := h
      have h1 := newline_not_mem _ (ft.write_token v.1).2
      have h2 := newline_not_mem _ (ft.write_token v.2).2
      simp only [toList_append, List.mem_append, not_or]
      exact ⟨⟨h1, by decide⟩, h2⟩

/-- Each returned coordinate is a multiple of the grid size. -/
theorem MapCoordsToClosest_multiple (G : ℤ) (coords : ℤ × ℤ) :
    G ∣ (MapCoordsToClosest G coords).1 ∧ G ∣ (MapCoordsToClosest G coords).2 := by
  have key : ∀ x : ℤ, G ∣ (if Int.tmod x G > Int.tdiv G 2 then x + (G - Int.tmod x G)
      else x - Int.tmod x G) := by
    intro x
    have h := Int.tmod_def x G
    split
    · exact ⟨Int.tdiv x G + 1, by rw [h]; ring⟩
    · exact ⟨Int.tdiv x G, by rw [h]; ring⟩
  exact ⟨key coords.1, key coords.2⟩

/-- For a coordinate that is not negative and a positive grid size, no multiple
of the grid size is nearer to the coordinate than the one returned. -/
theorem MapCoordsToClosest_nonneg (G x y k : ℤ) (hG : 0 < G) (hx : 0 ≤ x) :
    |x - (MapCoordsToClosest G (x, y)).1| ≤ |x - k * G| := by
  have hq := Int.tmod_add_tdiv x G
  have ho0 : 0 ≤ Int.tmod x G := Int.tmod_nonneg G hx
  have ho1 : Int.tmod x G < G := Int.tmod_lt_of_pos x hG
  have hh : Int.tdiv G 2 = G / 2 := Int.tdiv_eq_ediv (le_of_lt hG) (by norm_num)
  simp only [MapCoordsToClosest]
  generalize Int.tmod x G = o at hq ho0 ho1 ⊢
  generalize Int.tdiv x G = q at hq
  rw [hh]
  have hx' : x - k * G = G * (q - k) + o := by rw [← hq]; ring
  rw [hx']
  rcases le_or_lt k q with hk | hk
  · have hd : 0 ≤ G * (q - k) := mul_nonneg (le_of_lt hG) (by omega)
    rw [abs_of_nonneg (by omega : 0 ≤ G * (q - k) + o)]
    split
    · have e : x - (x + (G - o)) = -(G - o) := by ring
      rw [e, abs_neg, abs_of_nonneg (by omega)]
      omega
    · have e : x - (x - o) = o := by ring
      rw [e, abs_of_nonneg ho0]
      omega
  · have hd : G * (q - k) ≤ -G := by
      have : G * (q - k) ≤ G * (-1) := mul_le_mul_of_nonneg_left (by omega) (le_of_lt hG)
      linarith
    rw [abs_of_neg (by omega : G * (q - k) + o < 0)]
    split
    · have e : x - (x + (G - o)) = -(G - o) := by ring
      rw [e, abs_neg, abs_of_nonneg (by omega)]
      omega
    · have e : x - (x - o) = o := by ring
      rw [e, abs_of_nonneg ho0]
      omega

/-! ## Single precision -/

theorem round_zero (negative : Bool) : Binary32.round negative 0 = .finite negative 0 0 := by
  simp [Binary32.round]

theorem roundHalfEven_small (q : ℚ) (h : q < 1 / 2) :
    Binary32.roundHalfEven q = 0 := by
  have hf : ⌊q⌋₊ = 0 := Nat.floor_eq_zero.mpr (by linarith)
  simp only [Binary32.roundHalfEven, hf, Nat.cast_zero, sub_zero, if_pos h]

/-- A magnitude below half of the smallest positive `float`, `2^-149`, is
rounded to zero. -/
theorem round_underflow (negative : Bool) (a : ℚ) (h0 : 0 < a) (h : a < 2 ^ (-150 : ℤ)) :
    Binary32.round negative a = .finite negative 0 (-149) := by
  have hlog : Int.log 2 a < -150 := by
    have := (Int.lt_zpow_iff_log_lt (R := ℚ) (b := 2) (by norm_num) (x := -150) h0).mp
      (by simpa using h)
    exact this
  have he : max (Int.log 2 a - 23) (-149) = -149 := max_eq_right (by omega)
  have hq : a / 2 ^ (-149 : ℤ) < 1 / 2 := by
    rw [div_lt_iff₀ (by positivity)]
    calc a < 2 ^ (-150 : ℤ) := h
      _ = 1 / 2 * 2 ^ (-149 : ℤ) := by
        rw [show (-149 : ℤ) = -150 + 1 by norm_num, zpow_add₀ (by norm_num : (2 : ℚ) ≠ 0)]
        norm_num
  have hm : Binary32.roundHalfEven (a / 2 ^ (-149 : ℤ)) = 0 :=
    roundHalfEven_small _ hq
  unfold Binary32.round
  rw [if_neg (ne_of_gt h0)]
  simp only [he, hm]
  norm_num

/-- The product of `ω = 2^-100` and `L = 2^-100`, both not zero, underflows:
the divisor of `GetAdmittance` is `+0`, and the quotient an infinity. -/
theorem GetAdmittance_underflow :
    Single.Inductor.divisor (.finite false 1 (-100)) (.finite false 1 (-100)) =
      .finite false 0 (-149) ∧
    Single.Inductor.GetAdmittance (.finite false 1 (-100)) (.finite false 1 (-100)) =
      ⟨Binary32.zero, .inf false⟩ := by
  have hd : Single.Inductor.divisor (.finite false 1 (-100)) (.finite false 1 (-100)) =
      .finite false 0 (-149) := by
    have h := round_underflow false (((1 * 1 : ℕ) : ℚ) * 2 ^ ((-100 : ℤ) + -100))
      (by positivity)
      (by norm_num)
    exact h
  refine ⟨hd, ?_⟩
  unfold Single.Inductor.GetAdmittance
  rw [hd]
  rfl

/-- C6, amended: `Inductor::GetAdmittance` has no guard, it executes the
division `1 / (ω·L)` for every `ω` and `L`.  At `ω = 0` (`+0` or `-0`) the
divisor `ω·L` is a zero for every finite inductance `L`, zero or not: the
division is a division by zero, and the imaginary part returned is an
infinity.  (For an inductance that is an infinity or NaN the divisor `0·L` is
NaN, and so is the quotient.) -/
theorem GetAdmittance_divides_by_zero_at_zero :
    (∀ L w : Binary32, Single.Inductor.GetAdmittance L w =
      ⟨Binary32.zero, Binary32.div Binary32.one (Binary32.mul w L)⟩) ∧
    (∀ (s t : Bool) (m : ℕ) (e f : ℤ),
      (Single.Inductor.divisor (.finite t m f) (.finite s 0 e)).isZero = true ∧
      Single.Inductor.GetAdmittance (.finite t m f) (.finite s 0 e) =
        ⟨Binary32.zero, .inf (xor s t)⟩) ∧
    (∀ (s : Bool) (e : ℤ) (L : Binary32), L.toRat = none →
      Single.Inductor.divisor L (.finite s 0 e) = .nan ∧
      Single.Inductor.GetAdmittance L (.finite s 0 e) = ⟨Binary32.zero, .nan⟩) := by
  refine ⟨fun L w => rfl, ?_, ?_⟩
  · intro s t m e f
    have hd : Single.Inductor.divisor (.finite t m f) (.finite s 0 e) =
        .finite (xor s t) 0 0 := by
      simp [Single.Inductor.divisor, Binary32.mul, Binary32.round]
    refine ⟨by rw [hd]; rfl, ?_⟩
    unfold Single.Inductor.GetAdmittance
    rw [hd]
    simp [Binary32.div, Binary32.one]
  · intro s e L hL
    cases L with
    | finite t m f => simp [Binary32.toRat] at hL
    | inf t => exact ⟨rfl, rfl⟩
    | nan => exact ⟨rfl, rfl⟩

/-- No `float` is the number `1/3`: a finite `float` is a whole number times a
power of two. -/
theorem toRat_ne_third (b : Binary32) : b.toRat ≠ some (1 / 3) := by
  cases b with
  | finite negative m e =>
    intro h
    simp only [Binary32.toRat, Option.some.injEq] at h
    cases negative with
    | true =>
      have hp : (0 : ℚ) ≤ m * 2 ^ e := by positivity
      simp only [if_true] at h
      linarith
    | false =>
      simp only [Bool.false_eq_true, if_false, one_mul] at h
      obtain ⟨k, rfl | rfl⟩ := Int.eq_nat_or_neg e
      · rw [zpow_natCast] at h
        have h3 : ((3 * (m * 2 ^ k) : ℕ) : ℚ) = ((1 : ℕ) : ℚ) := by
          push_cast
          linarith
        have h4 : 3 * (m * 2 ^ k) = 1 := Nat.cast_injective h3
        omega
      · rw [zpow_neg, zpow_natCast] at h
        have hk : (2 : ℚ) ^ k ≠ 0 := by positivity
        have h3 : ((3 * m : ℕ) : ℚ) = ((2 ^ k : ℕ) : ℚ) := by
          push_cast
          field_simp at h
          linarith
        have h4 : 3 * m = 2 ^ k := Nat.cast_injective h3
        have h5 : 3 ∣ 2 ^ k := ⟨m, h4.symm⟩
        have h6 : 3 ∣ 2 := Nat.Prime.dvd_of_dvd_pow (by norm_num) h5
        omega
  | inf negative => simp [Binary32.toRat]
  | nan => simp [Binary32.toRat]

/-- No `std::complex<float>` is the number `1/3`. -/
theorem exact_ne_third (x : CFloat) : x.exact ≠ some ⟨1 / 3, 0⟩ := by
  intro h
  unfold CFloat.exact at h
  cases hre : x.re.toRat with
  | none => simp [hre] at h
  | some re =>
    cases him : x.im.toRat with
    | none => simp [hre, him] at h
    | some im =>
      simp only [hre, him, Option.some.injEq, Cplx.mk.injEq] at h
      exact toRat_ne_third x.re (by rw [hre, h.1])

theorem fill_inRange (x : List CFloat) (rest : List (String × ℤ)) :
    ∀ out : StdMap CFloat, (∀ e ∈ rest, 0 ≤ e.2 ∧ e.2 < x.length) →
      ∃ m, Single.MNAsolver.fill x rest out = some m := by
  induction rest with
  | nil => exact fun out _ => ⟨out, rfl⟩
  | cons e rest ih =>
    intro out h
    obtain ⟨h0, h1⟩ := h e (List.mem_cons_self _ _)
    have hlt : e.2.toNat < x.length := by omega
    have hc : Single.coeff x e.2 = some (x.get ⟨e.2.toNat, hlt⟩) := by
      simp [Single.coeff, h0, List.getElem?_eq_getElem hlt]
    simp only [Single.MNAsolver.fill, hc]
    exact ih _ fun d hd => h d (List.mem_cons_of_mem _ hd)

/-- What `solveSteady` stores when every index is in range, for any `A`, any
`z` and any behaviour of Eigen. -/
theorem solveSteady_float_eq (eig : Single.Eigen) {n : ℕ} (self : Single.MNAsolver)
    (A : Matrix (Fin n) (Fin n) CFloat) (z : Fin n → CFloat) (ni vi : StdMap ℤ)
    (hni : InRange n ni) (hvi : InRange n vi) :
    ∃ s, Single.MNAsolver.solveSteady eig self A z ni vi = some s ∧
      s.x_ = Single.coeffs (eig.mulVec (eig.inverse A) z) := by
  have hlen : (Single.coeffs (eig.mulVec (eig.inverse A) z)).length = n := by
    simp [Single.coeffs]
  obtain ⟨nv, hnv⟩ := fill_inRange (Single.coeffs (eig.mulVec (eig.inverse A) z)) ni.entries
    StdMap.empty (fun e he => by rw [hlen]; exact hni e he)
  obtain ⟨vc, hvc⟩ := fill_inRange (Single.coeffs (eig.mulVec (eig.inverse A) z)) vi.entries
    StdMap.empty (fun e he => by rw [hlen]; exact hvi e he)
  refine ⟨⟨_, nv, vc⟩, ?_, rfl⟩
  rw [Single.MNAsolver.solveSteady]
  dsimp only
  rw [hnv]
  dsimp only
  rw [hvc]
  rfl

theorem exact_one : (⟨Binary32.one, Binary32.zero⟩ : CFloat).exact = some 1 := by
  simp only [CFloat.exact, Binary32.toRat, Binary32.one, Binary32.zero]
  norm_num
  rfl

theorem ofRat_zero : Binary32.ofRat 0 = .finite false 0 0 := by
  simp [Binary32.ofRat, Binary32.round]

theorem ofRat_one : Binary32.ofRat 1 = .finite false 8388608 (-23) := by
  have hf : ⌊(8388608 : ℚ)⌋₊ = 8388608 := by
    rw [show (8388608 : ℚ) = ((8388608 : ℕ) : ℚ) by norm_num]
    exact Nat.floor_natCast _
  have hl : Int.log 2 (1 : ℚ) = 0 := Int.log_one_right 2
  have hr : Binary32.roundHalfEven (8388608 : ℚ) = 8388608 := by
    unfold Binary32.roundHalfEven
    rw [hf]
    norm_num
  unfold Binary32.ofRat Binary32.round
  simp only [abs_one, one_ne_zero, if_false, hl]
  norm_num [hr]

theorem exact_ofCplx_one : (CFloat.ofCplx 1).exact = some 1 := by
  simp only [CFloat.ofCplx, Cplx.one_re, Cplx.one_im, ofRat_one, ofRat_zero, CFloat.exact,
    Binary32.toRat]
  norm_num
  rfl

theorem rounded_at_one (i : Fin 1) :
    (Single.Eigen.rounded.mulVec
      (Single.Eigen.rounded.inverse (!![⟨.one, .zero⟩] : Matrix (Fin 1) (Fin 1) CFloat))
      ![⟨.one, .zero⟩] i).exact =
    some (Matrix.mulVec (1 : Matrix (Fin 1) (Fin 1) Cplx)⁻¹ ![1] i) := by
  have hinv : Single.Eigen.rounded.inverse
      (!![⟨.one, .zero⟩] : Matrix (Fin 1) (Fin 1) CFloat) = fun _ _ => CFloat.ofCplx 1 := by
    funext i j
    fin_cases i
    fin_cases j
    simp [Single.Eigen.rounded, inverse, Matrix.det_fin_one, exact_one]
  rw [hinv]
  fin_cases i
  simp [Single.Eigen.rounded, exact_ofCplx_one, exact_one, Matrix.mulVec, Matrix.dotProduct]

end CircuitSim
